import Mathlib

/-!
Verification of the hypertrial core: the cycle-segmented SPD evaluator
(`core/spd.py`) and the constrained weight-redistribution strategy
(`core/strategies/dynamic_dca_100ma.py`).

Dates are modelled as calendar dates (year, month, day over ℤ), since the
evaluator's cycle arithmetic (`pd.DateOffset(years=4)`, `pd.Timedelta(days=1)`)
is calendar arithmetic.  Numeric values are modelled over ℚ; the IEEE
non-finite artifacts that Python floats produce on division by zero are
modelled by `Option ℚ` with `none` standing for NaN/±∞.
-/

set_option maxRecDepth 4000

namespace Hypertrial

/-- A calendar date, as carried by the pandas `DatetimeIndex` of the price
series.  All fields are integers; validity (`ValidDate`) is a separate
predicate, mirroring the fact that pandas timestamps are always valid dates. -/
structure Date where
  year : ℤ
  month : ℤ
  day : ℤ
deriving DecidableEq, Repr

instance : Inhabited Date := ⟨⟨0, 1, 1⟩⟩

/-- Lexicographic order on dates (the order of a `DatetimeIndex`). -/
def dle (a b : Date) : Bool :=
  decide (a.year < b.year) ||
    (decide (a.year = b.year) &&
      (decide (a.month < b.month) ||
        (decide (a.month = b.month) && decide (a.day ≤ b.day))))

/-- Strict order on dates. -/
def dlt (a b : Date) : Bool := !(dle b a)

/-- `min` of two dates, as used for `min(cycle_end, df_backtest.index.max())`. -/
def dmin (a b : Date) : Date := if dle a b then a else b

/-- `max` of two dates. -/
def dmax (a b : Date) : Date := if dle a b then b else a

theorem dle_iff {a b : Date} :
    dle a b = true ↔
      (a.year < b.year ∨
        (a.year = b.year ∧
          (a.month < b.month ∨ (a.month = b.month ∧ a.day ≤ b.day)))) := by
  simp [dle, Bool.or_eq_true, Bool.and_eq_true, decide_eq_true_eq]

theorem dlt_iff {a b : Date} :
    dlt a b = true ↔
      (a.year < b.year ∨
        (a.year = b.year ∧
          (a.month < b.month ∨ (a.month = b.month ∧ a.day < b.day)))) := by
  have h := dle_iff (a := b) (b := a)
  unfold dlt
  rw [Bool.not_eq_true']
  constructor
  · intro hf
    have hn : ¬ dle b a = true := by simp [hf]
    rw [h] at hn
    omega
  · intro hp
    cases hdb : dle b a with
    | false => rfl
    | true => rw [h] at hdb; omega

theorem dle_refl (a : Date) : dle a a = true := by rw [dle_iff]; omega

theorem dle_trans {a b c : Date} (h1 : dle a b = true) (h2 : dle b c = true) :
    dle a c = true := by
  rw [dle_iff] at *; omega

theorem dle_total (a b : Date) : dle a b = true ∨ dle b a = true := by
  rw [dle_iff, dle_iff]; omega

theorem dlt_of_dle_not_dle {a b : Date} (h : ¬ dle a b = true) : dlt b a = true := by
  rw [dlt_iff]; rw [dle_iff] at h; push_neg at h; omega

theorem dle_of_dlt {a b : Date} (h : dlt a b = true) : dle a b = true := by
  rw [dlt_iff] at h; rw [dle_iff]; omega

theorem dlt_irrefl (a : Date) : ¬ dlt a a = true := by
  rw [dlt_iff]; omega

theorem dlt_of_dle_of_dlt {a b c : Date} (h1 : dle a b = true) (h2 : dlt b c = true) :
    dlt a c = true := by
  rw [dle_iff] at h1; rw [dlt_iff] at *; omega

theorem dlt_of_dlt_of_dle {a b c : Date} (h1 : dlt a b = true) (h2 : dle b c = true) :
    dlt a c = true := by
  rw [dle_iff] at h2; rw [dlt_iff] at *; omega

theorem dle_dmin {x a b : Date} (h1 : dle x a = true) (h2 : dle x b = true) :
    dle x (dmin a b) = true := by
  unfold dmin; split <;> assumption

theorem dmin_le_left (a b : Date) : dle (dmin a b) a = true := by
  unfold dmin; split
  · exact dle_refl a
  · next h => exact dle_of_dlt (dlt_of_dle_not_dle h)

theorem dmin_le_right (a b : Date) : dle (dmin a b) b = true := by
  unfold dmin; split
  · assumption
  · exact dle_refl b

theorem le_dmin_iff {x a b : Date} :
    dle x (dmin a b) = true ↔ (dle x a = true ∧ dle x b = true) := by
  constructor
  · intro h
    unfold dmin at h
    split at h
    · next hab => exact ⟨h, dle_trans h hab⟩
    · next hab =>
      exact ⟨dle_trans h (dle_of_dlt (dlt_of_dle_not_dle hab)), h⟩
  · exact fun ⟨h1, h2⟩ => dle_dmin h1 h2

/-- Gregorian leap year. -/
def isLeap (y : ℤ) : Bool :=
  (decide (y % 4 = 0) && decide (y % 100 ≠ 0)) || decide (y % 400 = 0)

/-- Number of days in a month. -/
def daysInMonth (y m : ℤ) : ℤ :=
  if m = 2 then (if isLeap y then 29 else 28)
  else if m = 4 ∨ m = 6 ∨ m = 9 ∨ m = 11 then 30
  else 31

theorem daysInMonth_pos (y m : ℤ) : 1 ≤ daysInMonth y m := by
  unfold daysInMonth; split_ifs <;> omega

theorem daysInMonth_le (y m : ℤ) : daysInMonth y m ≤ 31 := by
  unfold daysInMonth; split_ifs <;> omega

/-- A valid calendar date. -/
def ValidDate (d : Date) : Prop :=
  1 ≤ d.month ∧ d.month ≤ 12 ∧ 1 ≤ d.day ∧ d.day ≤ daysInMonth d.year d.month

instance (d : Date) : Decidable (ValidDate d) := by
  unfold ValidDate; infer_instance

/-- `pd.DateOffset(years=n)`: same month/day `n` years later, with the day
clamped to the target month's length (Feb 29 → Feb 28 in non-leap years). -/
def addYears (n : ℤ) (d : Date) : Date :=
  ⟨d.year + n, d.month, min d.day (daysInMonth (d.year + n) d.month)⟩

/-- `- pd.Timedelta(days=1)`: the previous calendar day. -/
def predDay (d : Date) : Date :=
  if 1 < d.day then ⟨d.year, d.month, d.day - 1⟩
  else if 1 < d.month then ⟨d.year, d.month - 1, daysInMonth d.year (d.month - 1)⟩
  else ⟨d.year - 1, 12, 31⟩

theorem addYears_valid {d : Date} (n : ℤ) (h : ValidDate d) :
    ValidDate (addYears n d) := by
  obtain ⟨h1, h2, h3, h4⟩ := h
  exact ⟨h1, h2,
    show (1 : ℤ) ≤ min d.day (daysInMonth (d.year + n) d.month) from
      le_min h3 (daysInMonth_pos _ _),
    show min d.day (daysInMonth (d.year + n) d.month) ≤
        daysInMonth (d.year + n) d.month from min_le_right _ _⟩

theorem predDay_valid {d : Date} (h : ValidDate d) : ValidDate (predDay d) := by
  obtain ⟨h1, h2, h3, h4⟩ := h
  unfold predDay
  split_ifs with hd hm
  · exact ⟨h1, h2, show (1 : ℤ) ≤ d.day - 1 by omega,
      show d.day - 1 ≤ daysInMonth d.year d.month by omega⟩
  · exact ⟨show (1 : ℤ) ≤ d.month - 1 by omega,
      show d.month - 1 ≤ 12 by omega,
      show (1 : ℤ) ≤ daysInMonth d.year (d.month - 1) from daysInMonth_pos _ _,
      show daysInMonth d.year (d.month - 1) ≤ daysInMonth d.year (d.month - 1) from
        le_refl _⟩
  · refine ⟨show (1 : ℤ) ≤ 12 by norm_num, show (12 : ℤ) ≤ 12 by norm_num,
      show (1 : ℤ) ≤ 31 by norm_num, ?_⟩
    show (31 : ℤ) ≤ daysInMonth (d.year - 1) 12
    unfold daysInMonth
    norm_num

theorem predDay_lt (d : Date) : dlt (predDay d) d = true := by
  unfold predDay
  split_ifs with hd hm <;> rw [dlt_iff]
  · exact Or.inr ⟨rfl, Or.inr ⟨rfl, show d.day - 1 < d.day by omega⟩⟩
  · exact Or.inr ⟨rfl, Or.inl (show d.month - 1 < d.month by omega)⟩
  · exact Or.inl (show d.year - 1 < d.year by omega)

theorem addYears_year (n : ℤ) (d : Date) : (addYears n d).year = d.year + n := rfl

theorem dlt_addYears {n : ℤ} (hn : 0 < n) (d : Date) : dlt d (addYears n d) = true := by
  rw [dlt_iff]
  exact Or.inl (show d.year < d.year + n by omega)

/-- Adjacency: there is no valid date strictly between `predDay c` and `c`. -/
theorem predDay_adjacent {c d : Date} (hc : ValidDate c) (hd : ValidDate d)
    (h : dlt (predDay c) d = true) : dle c d = true := by
  obtain ⟨hc1, hc2, hc3, hc4⟩ := hc
  obtain ⟨hd1, hd2, hd3, hd4⟩ := hd
  by_contra hcd
  have hdc : dlt d c = true := dlt_of_dle_not_dle hcd
  rw [dlt_iff] at hdc
  unfold predDay at h
  split_ifs at h with hday hmonth
  · rw [dlt_iff] at h
    dsimp only at h
    omega
  · rw [dlt_iff] at h
    dsimp only at h
    -- predDay c = (c.year, c.month - 1, daysInMonth c.year (c.month - 1)):
    -- d strictly between that and c = (c.year, c.month, 1) is impossible.
    rcases h with h | ⟨hy, h⟩
    · omega
    · rcases h with h | ⟨hm, h⟩
      · omega
      · rw [← hy, ← hm] at hd4
        omega
  · rw [dlt_iff] at h
    dsimp only at h
    -- predDay c = (c.year - 1, 12, 31), c = (c.year, 1, 1).
    have hdim := daysInMonth_le d.year d.month
    rcases h with h | ⟨hy, h⟩
    · omega
    · rcases h with h | ⟨hm, h⟩
      · omega
      · omega

/-! ## Data model -/

/-- One row of the feature-augmented price series `df`: the raw price
`btc_close` plus the two rolling features added by `construct_features`. -/
structure PRow where
  date : Date
  btc_close : ℚ
  ma100 : ℚ
  std100 : ℚ
deriving DecidableEq, Repr

instance : Inhabited PRow := ⟨⟨default, 0, 0, 0⟩⟩

/-- Modelled from the spec: the configuration constants of `core/config.py`
(not part of the sources) — the evaluation window `[BACKTEST_START,
BACKTEST_END]`, the boost sensitivity `ALPHA`, the redistribution window size
`REBALANCE_WINDOW` and the weight floor `MIN_WEIGHT`; per §6 of the spec these
are injected constants consumed, not computed, by the core. -/
structure Config where
  BACKTEST_START : Date
  BACKTEST_END : Date
  ALPHA : ℚ
  REBALANCE_WINDOW : ℕ
  MIN_WEIGHT : ℚ
deriving Repr

/-- `df.loc[BACKTEST_START:BACKTEST_END]` — label slicing is inclusive on
both ends. -/
def window_rows (cfg : Config) (df : List PRow) : List PRow :=
  df.filter (fun r => dle cfg.BACKTEST_START r.date && dle r.date cfg.BACKTEST_END)

/-! ## WeightAllocator (`dynamic_dca_100ma.compute_weights`) -/

/-- `cycle_labels`: `(dt.year - start_year) // 4` (Python floor division). -/
def cycle_label (cfg : Config) (r : PRow) : ℤ :=
  (r.date.year - cfg.BACKTEST_START.year).fdiv 4

/-- `df.groupby(cycle_labels)`: one group per distinct label, in ascending
label order (pandas iterates groups in sorted key order), each group keeping
the original row order.  For a chronologically sorted index the labels appear
in nondecreasing order, so `dedup` already lists them in first-occurrence
order and the sort is the identity. -/
def cycle_groups (cfg : Config) (df : List PRow) : List (List PRow) :=
  let W := window_rows cfg df
  (((W.map (cycle_label cfg)).dedup).insertionSort (· ≤ ·)).map
    (fun c => W.filter (fun r => decide (cycle_label cfg r = c)))

/-- The per-cycle scan of `compute_weights` (the `for i in range(N)` loop with
the `strategy_active` early-exit flag).  `fuel` counts the remaining
iterations (`fuel = N - i` throughout); the weight array `temp_weights` is a
function `ℕ → ℚ`, updated pointwise exactly as the two in-place NumPy
assignments do. -/
def boost_aux (cfg : Config) (g : List PRow) (N : ℕ) :
    ℕ → ℕ → (ℕ → ℚ) → (ℕ → ℚ)
  | 0, _, w => w
  | fuel + 1, i, w =>
    if N ≤ i then w
    else
      let r := g.getD i default
      if r.btc_close < r.ma100 ∧ 0 < r.std100 then
        let z := (r.ma100 - r.btc_close) / r.std100
        let boost_multiplier := 1 + cfg.ALPHA * z
        let current_weight := w i
        let boosted_weight := current_weight * boost_multiplier
        let excess := boosted_weight - current_weight
        let start_redistribution := max (N - cfg.REBALANCE_WINDOW) (i + 1)
        if N ≤ start_redistribution then
          boost_aux cfg g N fuel (i + 1) w
        else
          let reduction := excess / ((N - start_redistribution : ℕ) : ℚ)
          if ∀ j ∈ Finset.Ico start_redistribution N, cfg.MIN_WEIGHT ≤ w j - reduction then
            boost_aux cfg g N fuel (i + 1)
              (fun j => if j = i then boosted_weight
                else if start_redistribution ≤ j ∧ j < N then w j - reduction
                else w j)
          else w
      else boost_aux cfg g N fuel (i + 1) w

/-- The final `temp_weights` array of one cycle group, as a function of the
day index: uniform `1/N` initialization followed by the boosting scan. -/
def cycle_weights_fn (cfg : Config) (g : List PRow) : ℕ → ℚ :=
  boost_aux cfg g g.length g.length 0 (fun _ => 1 / (g.length : ℚ))

/-- The emitted `temp_weights` array of one cycle group, as a list. -/
def temp_weights_list (cfg : Config) (g : List PRow) : List ℚ :=
  (List.range g.length).map (cycle_weights_fn cfg g)

/-- Association-list lookup by date (a pandas label lookup; `none` means the
label is absent, which `.loc` reports as a `KeyError`). -/
def wlookup (d : Date) : List (Date × ℚ) → Option ℚ
  | [] => none
  | (d', v) :: t => if d' = d then some v else wlookup d t

/-- `compute_weights`: the `weights` series — NaN-initialized (`none`) over
the window index, then each cycle group's `temp_weights` assigned back over
the group's index labels. -/
def compute_weights (cfg : Config) (df : List PRow) : List (Date × Option ℚ) :=
  let W := window_rows cfg df
  let assigns := ((cycle_groups cfg df).map
    (fun g => (g.map (fun r => r.date)).zip (temp_weights_list cfg g))).flatten
  W.map (fun r => (r.date, wlookup r.date assigns))

/-! ## CycleEvaluator (`spd.compute_cycle_spd`) -/

/-- `weight_fn(df).fillna(0).clip(lower=0)`: NaN values become 0, then
negative values are clipped to 0.  Dates absent from the series stay absent —
`fillna` does not materialize missing index labels. -/
def ingest (wraw : List (Date × Option ℚ)) : List (Date × ℚ) :=
  wraw.map (fun p => (p.1, if p.2.getD 0 < 0 then 0 else p.2.getD 0))

/-- Division as performed on Python floats: a zero denominator yields a
non-finite artifact (NaN or ±∞), modelled as `none`. -/
def fdiv (a b : ℚ) : Option ℚ := if b = 0 then none else some (a / b)

/-- `np.max` over a nonempty value list (`0` as the irrelevant empty default;
the evaluator only applies it to nonempty cycles). -/
def list_max : List ℚ → ℚ
  | [] => 0
  | x :: xs => xs.foldl max x

/-- `np.min` over a nonempty value list. -/
def list_min : List ℚ → ℚ
  | [] => 0
  | x :: xs => xs.foldl min x

/-- One row of the per-cycle metrics table. -/
structure CycleRow where
  cycle : ℤ × ℤ
  min_spd : ℚ
  max_spd : ℚ
  uniform_spd : ℚ
  dynamic_spd : ℚ
  uniform_pct : Option ℚ
  dynamic_pct : Option ℚ
  excess_pct : Option ℚ
deriving DecidableEq, Repr

/-- The per-cycle computation of `compute_cycle_spd` (lines 33–50): extremal
SPDs, uniform and dynamic SPD, and the percentile normalization, in source
order.  Prices are positive by the PriceSeries invariant, so the `1/price`
divisions are total on the intended domain; the `spd_range` division is kept
in the `Option`-valued float model because `high == low` makes it a genuine
division by zero. -/
def mk_cycle_row (lab : ℤ × ℤ) (prices : List ℚ) (ws : List ℚ) : CycleRow :=
  let high := list_max prices
  let low := list_min prices
  let min_spd := (1 / high) * 100000000
  let max_spd := (1 / low) * 100000000
  let cycle_inverted := prices.map (fun p => (1 / p) * 100000000)
  let uniform_spd := cycle_inverted.sum / (prices.length : ℚ)
  let dynamic_spd := ((ws.zip cycle_inverted).map (fun q => q.1 * q.2)).sum
  let spd_range := max_spd - min_spd
  let uniform_pct := (fdiv (uniform_spd - min_spd) spd_range).map (fun x => x * 100)
  let dynamic_pct := (fdiv (dynamic_spd - min_spd) spd_range).map (fun x => x * 100)
  let excess_pct :=
    match dynamic_pct, uniform_pct with
    | some a, some b => some (a - b)
    | _, _ => none
  ⟨lab, min_spd, max_spd, uniform_spd, dynamic_spd, uniform_pct, dynamic_pct, excess_pct⟩

/-- `df_backtest.index.min()`. -/
def min_date (W : List PRow) : Date :=
  match W with
  | [] => ⟨1970, 1, 1⟩
  | r :: t => t.foldl (fun acc s => dmin acc s.date) r.date

/-- `df_backtest.index.max()`. -/
def max_date (W : List PRow) : Date :=
  match W with
  | [] => ⟨1970, 1, 1⟩
  | r :: t => t.foldl (fun acc s => dmax acc s.date) r.date

/-- Enough iterations for the cycle loop: `current` advances 4 years per
iteration, so the loop runs at most `maxD.year + 1 - current.year` times. -/
def spd_fuel (minD maxD : Date) : ℕ := (maxD.year + 1 - minD.year).toNat

/-- The `while current <= df_backtest.index.max()` loop of
`compute_cycle_spd`: each iteration forms the nominal 4-year cycle
`[current, current + 4y - 1d]` clipped to the data's last date, breaks on an
empty slice, and advances `current` by exactly 4 years. -/
def spd_cycles_aux (W : List PRow) (maxD : Date) : ℕ → Date → List (Date × Date × List PRow)
  | 0, _ => []
  | fuel + 1, current =>
    if dle current maxD then
      let cycle_end := predDay (addYears 4 current)
      let end_date := dmin cycle_end maxD
      let cyc := W.filter (fun r => dle current r.date && dle r.date end_date)
      if cyc.isEmpty then []
      else (current, end_date, cyc) :: spd_cycles_aux W maxD fuel (addYears 4 current)
    else []

/-- The full cycle partition of a window, with each cycle's `current` start
and clipped `end_date`. -/
def spd_cycles (W : List PRow) : List (Date × Date × List PRow) :=
  spd_cycles_aux W (max_date W) (spd_fuel (min_date W) (max_date W)) (min_date W)

/-- Just the per-cycle row slices of the partition. -/
def spd_slices (W : List PRow) : List (List PRow) :=
  (spd_cycles W).map (fun t => t.2.2)

/-- Monadic traversal over `Option`: the first failing lookup aborts the
whole computation (a raised `KeyError`). -/
def optionTraverse (f : α → Option β) : List α → Option (List β)
  | [] => some []
  | a :: t =>
    match f a, optionTraverse f t with
    | some b, some bs => some (b :: bs)
    | _, _ => none

/-- `compute_cycle_spd(df, strategy_name)` with the strategy's returned
weight series passed in as `wraw`.  Failure (`none`) arises from a missing
weight label (`KeyError` in `full_weights.loc[cycle.index]`) or from zero
cycles (`set_index('cycle')` on an empty frame raises). -/
def compute_cycle_spd (cfg : Config) (df : List PRow)
    (wraw : List (Date × Option ℚ)) : Option (List CycleRow) :=
  let W := window_rows cfg df
  let full_weights := ingest wraw
  match optionTraverse (fun t =>
      (optionTraverse (fun r => wlookup r.date full_weights) t.2.2).map
        (fun ws => mk_cycle_row (t.1.year, t.2.1.year)
          (t.2.2.map (fun r => r.btc_close)) ws)) (spd_cycles W) with
  | none => none
  | some rows => if rows.isEmpty then none else some rows

/-! ## SummaryReducer (the aggregation block of `backtest_dynamic_dca`) -/

/-- `Series.min()`: NaN (`none`) on an empty column. -/
def col_min : List ℚ → Option ℚ
  | [] => none
  | x :: xs => some (xs.foldl min x)

/-- `Series.max()`: NaN (`none`) on an empty column. -/
def col_max : List ℚ → Option ℚ
  | [] => none
  | x :: xs => some (xs.foldl max x)

/-- `Series.mean()`: NaN (`none`) on an empty column. -/
def col_mean (l : List ℚ) : Option ℚ :=
  match l with
  | [] => none
  | _ => some (l.sum / (l.length : ℚ))

/-- `Series.median()`: sort, take the middle element (odd length) or the mean
of the two middle elements (even length); NaN (`none`) on an empty column. -/
def col_median (l : List ℚ) : Option ℚ :=
  match l with
  | [] => none
  | _ =>
    let s := l.insertionSort (· ≤ ·)
    if l.length % 2 = 1 then some (s.getD (l.length / 2) 0)
    else some ((s.getD (l.length / 2 - 1) 0 + s.getD (l.length / 2) 0) / 2)

/-- The four summary statistics of one column. -/
structure ColStats where
  min : Option ℚ
  max : Option ℚ
  mean : Option ℚ
  median : Option ℚ
deriving DecidableEq, Repr

/-- All four statistics of a column. -/
def col_stats (l : List ℚ) : ColStats :=
  ⟨col_min l, col_max l, col_mean l, col_median l⟩

/-- The aggregation block of `backtest_dynamic_dca`: the
`dynamic_spd_metrics` and `dynamic_pct_metrics` dictionaries.  Pandas skips
NaN values when aggregating, so the `dynamic_pct` column drops its `none`
entries first. -/
def backtest_metrics (rows : List CycleRow) : ColStats × ColStats :=
  (col_stats (rows.map (fun r => r.dynamic_spd)),
   col_stats ((rows.map (fun r => r.dynamic_pct)).reduceOption))

/-! ## The boosting scan: sum preservation and one-step behaviour -/

theorem sum_map_range (f : ℕ → ℚ) (n : ℕ) :
    ((List.range n).map f).sum = ∑ i ∈ Finset.range n, f i := by
  induction n with
  | zero => simp
  | succ n ih => rw [List.range_succ, List.map_append, List.sum_append,
      Finset.sum_range_succ, ih]; simp

theorem range_filter_le (s n : ℕ) :
    (Finset.range n).filter (fun j => s ≤ j) = Finset.Ico s n := by
  ext j
  simp only [Finset.mem_filter, Finset.mem_range, Finset.mem_Ico]
  omega

/-- Each committed boost moves exactly `excess` from the window to day `i`,
each skip and the halt change nothing: the total over the cycle is
invariant under the whole scan. -/
theorem boost_aux_sum (cfg : Config) (g : List PRow) (N : ℕ) :
    ∀ (fuel i : ℕ) (w : ℕ → ℚ),
      ∑ j ∈ Finset.range N, boost_aux cfg g N fuel i w j =
        ∑ j ∈ Finset.range N, w j := by
  intro fuel
  induction fuel with
  | zero => intro i w; rfl
  | succ fuel ih =>
    intro i w
    simp only [boost_aux]
    split_ifs with h1 h2 h3 h4
    · rfl
    · exact ih (i + 1) w
    · -- commit: the update redistributes `excess` without changing the sum
      rw [ih]
      set r := g.getD i default with hr
      set z := (r.ma100 - r.btc_close) / r.std100 with hz
      set boosted := w i * (1 + cfg.ALPHA * z) with hboost
      set start := max (N - cfg.REBALANCE_WINDOW) (i + 1) with hstart
      set red := (boosted - w i) / ((N - start : ℕ) : ℚ) with hred
      have hiN : i < N := by omega
      have hisl : i < start := le_max_right _ _
      have hsN : start < N := by omega
      clear_value r z boosted start red
      have hsplit : ∀ j ∈ Finset.range N,
          (if j = i then boosted else if start ≤ j ∧ j < N then w j - red else w j) =
            ((if j = i then boosted - w i else 0) +
              ((if start ≤ j then -red else 0) + w j)) := by
        intro j hj
        rw [Finset.mem_range] at hj
        split_ifs
        all_goals try (exfalso; omega)
        all_goals (subst_vars; ring)
      rw [Finset.sum_congr rfl hsplit]
      rw [Finset.sum_add_distrib, Finset.sum_add_distrib]
      have h5 : ∑ j ∈ Finset.range N, (if j = i then boosted - w i else 0) =
          boosted - w i := by
        rw [Finset.sum_ite_eq' (Finset.range N) i (fun _ => boosted - w i)]
        simp [Finset.mem_range, hiN]
      have h6 : ∑ j ∈ Finset.range N, (if start ≤ j then -red else 0) =
          -(boosted - w i) := by
        rw [Finset.sum_ite, Finset.sum_const, Finset.sum_const]
        rw [range_filter_le, Nat.card_Ico]
        have hcast : ((N - start : ℕ) : ℚ) ≠ 0 := by
          have : 0 < N - start := by omega
          exact_mod_cast Nat.pos_iff_ne_zero.mp this
        rw [hred]
        simp only [smul_zero, add_zero, nsmul_eq_mul]
        field_simp
      rw [h5, h6]
      ring
    · rfl
    · exact ih (i + 1) w

/-- Claim C3: in the per-cycle scan, an empty redistribution window skips
that day's boost and continues the scan, while a floor violation in the
window returns the current weights unchanged — ending the scan, hence
rejecting that boost and all subsequent ones for the cycle. -/
theorem claim3_skip_vs_halt (cfg : Config) (g : List PRow) (N fuel i : ℕ)
    (w : ℕ → ℚ) (hi : i < N)
    (hcond : (g.getD i default).btc_close < (g.getD i default).ma100 ∧
      0 < (g.getD i default).std100) :
    (N ≤ max (N - cfg.REBALANCE_WINDOW) (i + 1) →
      boost_aux cfg g N (fuel + 1) i w = boost_aux cfg g N fuel (i + 1) w) ∧
    (max (N - cfg.REBALANCE_WINDOW) (i + 1) < N →
      (∃ j ∈ Finset.Ico (max (N - cfg.REBALANCE_WINDOW) (i + 1)) N,
        w j - (w i * (1 + cfg.ALPHA * (((g.getD i default).ma100 -
            (g.getD i default).btc_close) / (g.getD i default).std100)) - w i) /
            ((N - max (N - cfg.REBALANCE_WINDOW) (i + 1) : ℕ) : ℚ) <
          cfg.MIN_WEIGHT) →
      boost_aux cfg g N (fuel + 1) i w = w) := by
  have hNi : ¬ N ≤ i := not_le.mpr hi
  constructor
  · intro hempty
    simp only [boost_aux]
    rw [if_neg hNi, if_pos hcond, if_pos hempty]
  · intro hnempty hviol
    simp only [boost_aux]
    rw [if_neg hNi, if_pos hcond, if_neg (not_le.mpr hnempty), if_neg]
    intro hall
    obtain ⟨j, hj, hlt⟩ := hviol
    exact absurd (hall j hj) (not_le.mpr hlt)

/-- Inputs for the `claim3_skip_vs_halt` witness: a one-day cycle (empty
redistribution window) on a day that satisfies the boost condition. -/
def gSkip : List PRow := [⟨⟨2013, 1, 1⟩, 1, 2, 1⟩]

/-- Inputs for the `claim3_skip_vs_halt` witness: a two-day cycle whose first
boost would push the window day below the floor. -/
def cfgHalt : Config := ⟨⟨2013, 1, 1⟩, ⟨2016, 12, 31⟩, 1, 2, 1⟩

/-- Starting weights for the `claim3_skip_vs_halt` witness. -/
def wHalf : ℕ → ℚ := fun _ => 1 / 2

theorem claim3_witness :
    boost_aux cfgHalt gSkip 1 1 0 wHalf = boost_aux cfgHalt gSkip 1 0 1 wHalf ∧
    boost_aux cfgHalt (gSkip ++ gSkip) 2 2 0 wHalf = wHalf := by
  constructor
  · exact (claim3_skip_vs_halt cfgHalt gSkip 1 0 0 wHalf (by decide)
      (by constructor <;> decide)).1 (by decide)
  · refine (claim3_skip_vs_halt cfgHalt (gSkip ++ gSkip) 2 1 0 wHalf (by decide)
      (by constructor <;> decide)).2 (by decide) ?_
    refine ⟨1, by decide, ?_⟩
    show wHalf 1 - (wHalf 0 * (1 + cfgHalt.ALPHA * ((2 - 1) / 1)) - wHalf 0) /
        ((2 - max (2 - cfgHalt.REBALANCE_WINDOW) 1 : ℕ) : ℚ) < cfgHalt.MIN_WEIGHT
    norm_num [wHalf, cfgHalt]

/-- `g ∈ cycle_groups cfg df → g ≠ []`: every pandas group is nonempty. -/
theorem cycle_groups_ne_nil {cfg : Config} {df : List PRow} {g : List PRow}
    (hg : g ∈ cycle_groups cfg df) : g ≠ [] := by
  unfold cycle_groups at hg
  rw [List.mem_map] at hg
  obtain ⟨c, hc, hfil⟩ := hg
  have hc2 : c ∈ ((window_rows cfg df).map (cycle_label cfg)).dedup :=
    ((List.perm_insertionSort _ _).mem_iff).mp hc
  rw [List.mem_dedup, List.mem_map] at hc2
  obtain ⟨r, hr, hrc⟩ := hc2
  have : r ∈ g := by
    rw [← hfil, List.mem_filter]
    exact ⟨hr, by simp [hrc]⟩
  exact List.ne_nil_of_mem this

/-- Claim C4: for every cycle group of `compute_weights`, the emitted weight
array sums to exactly 1: uniform `1/N` initialization, sum-preserving
committed boosts, and no-op skips/rejections. -/
theorem claim4_cycle_sum_one (cfg : Config) (df : List PRow) (g : List PRow)
    (hg : g ∈ cycle_groups cfg df) : (temp_weights_list cfg g).sum = 1 := by
  have hne : g ≠ [] := cycle_groups_ne_nil hg
  have hN : 0 < g.length := List.length_pos.mpr hne
  unfold temp_weights_list cycle_weights_fn
  rw [sum_map_range, boost_aux_sum]
  rw [Finset.sum_const, nsmul_eq_mul]
  have : (g.length : ℚ) ≠ 0 := by exact_mod_cast Nat.pos_iff_ne_zero.mp hN
  field_simp

/-- A concrete one-day window for the `claim4_cycle_sum_one` witness. -/
def cfgC4 : Config := ⟨⟨2013, 1, 1⟩, ⟨2016, 12, 31⟩, 1, 2, 0⟩

/-- The concrete price series for the `claim4_cycle_sum_one` witness. -/
def dfC4 : List PRow := [⟨⟨2013, 1, 1⟩, 100, 90, 1⟩, ⟨⟨2013, 6, 1⟩, 80, 95, 2⟩]

theorem claim4_witness :
    (temp_weights_list cfgC4 (window_rows cfgC4 dfC4)).sum = 1 := by
  have hg : window_rows cfgC4 dfC4 ∈ cycle_groups cfgC4 dfC4 := by decide
  exact claim4_cycle_sum_one cfgC4 dfC4 _ hg

/-! ## Non-negativity and the MIN_WEIGHT floor (ghost-instrumented scan) -/

/-- `boost_aux` instrumented with a ghost record of which day indices have
been reduced by a committed redistribution.  Its first component is exactly
`boost_aux` (`boost_aux_tr_fst`); the update and control flow are literally
those of the source loop. -/
def boost_aux_tr (cfg : Config) (g : List PRow) (N : ℕ) :
    ℕ → ℕ → (ℕ → ℚ) → (ℕ → Bool) → ((ℕ → ℚ) × (ℕ → Bool))
  | 0, _, w, fl => (w, fl)
  | fuel + 1, i, w, fl =>
    if N ≤ i then (w, fl)
    else
      let r := g.getD i default
      if r.btc_close < r.ma100 ∧ 0 < r.std100 then
        let z := (r.ma100 - r.btc_close) / r.std100
        let boost_multiplier := 1 + cfg.ALPHA * z
        let current_weight := w i
        let boosted_weight := current_weight * boost_multiplier
        let excess := boosted_weight - current_weight
        let start_redistribution := max (N - cfg.REBALANCE_WINDOW) (i + 1)
        if N ≤ start_redistribution then
          boost_aux_tr cfg g N fuel (i + 1) w fl
        else
          let reduction := excess / ((N - start_redistribution : ℕ) : ℚ)
          if ∀ j ∈ Finset.Ico start_redistribution N, cfg.MIN_WEIGHT ≤ w j - reduction then
            boost_aux_tr cfg g N fuel (i + 1)
              (fun j => if j = i then boosted_weight
                else if start_redistribution ≤ j ∧ j < N then w j - reduction
                else w j)
              (fun j => if start_redistribution ≤ j ∧ j < N then true else fl j)
          else (w, fl)
      else boost_aux_tr cfg g N fuel (i + 1) w fl

theorem boost_aux_tr_fst (cfg : Config) (g : List PRow) (N : ℕ) :
    ∀ (fuel i : ℕ) (w : ℕ → ℚ) (fl : ℕ → Bool),
      (boost_aux_tr cfg g N fuel i w fl).1 = boost_aux cfg g N fuel i w := by
  intro fuel
  induction fuel with
  | zero => intro i w fl; rfl
  | succ fuel ih =>
    intro i w fl
    simp only [boost_aux_tr, boost_aux]
    split_ifs <;> (first | rfl | apply ih)

/-- Invariant of the instrumented scan: all weights stay non-negative, and
every index flagged as reduced carries at least `MIN_WEIGHT`. -/
theorem boost_aux_tr_invariant (cfg : Config) (g : List PRow) (N : ℕ)
    (hα : 0 ≤ cfg.ALPHA) (hm : 0 ≤ cfg.MIN_WEIGHT) :
    ∀ (fuel i : ℕ) (w : ℕ → ℚ) (fl : ℕ → Bool),
      (∀ j, 0 ≤ w j) → (∀ j, fl j = true → cfg.MIN_WEIGHT ≤ w j) →
      (∀ j, 0 ≤ (boost_aux_tr cfg g N fuel i w fl).1 j) ∧
      (∀ j, (boost_aux_tr cfg g N fuel i w fl).2 j = true →
        cfg.MIN_WEIGHT ≤ (boost_aux_tr cfg g N fuel i w fl).1 j) := by
  intro fuel
  induction fuel with
  | zero => intro i w fl hw hfl; exact ⟨hw, hfl⟩
  | succ fuel ih =>
    intro i w fl hw hfl
    simp only [boost_aux_tr]
    split_ifs with h1 h2 h3 h4
    · exact ⟨hw, hfl⟩
    · exact ih (i + 1) w fl hw hfl
    · -- commit: apply the IH to the updated state
      set r := g.getD i default with hrdef
      have hz : 0 < (r.ma100 - r.btc_close) / r.std100 :=
        div_pos (sub_pos.mpr h2.1) h2.2
      have hmul : (1 : ℚ) ≤ 1 + cfg.ALPHA * ((r.ma100 - r.btc_close) / r.std100) := by
        nlinarith
      have hil : i < max (N - cfg.REBALANCE_WINDOW) (i + 1) := le_max_right _ _
      apply ih
      · intro j
        by_cases hji : j = i
        · subst hji
          rw [if_pos rfl]
          exact mul_nonneg (hw j) (by linarith)
        · rw [if_neg hji]
          by_cases hjw : max (N - cfg.REBALANCE_WINDOW) (i + 1) ≤ j ∧ j < N
          · rw [if_pos hjw]
            have := h4 j (Finset.mem_Ico.mpr hjw)
            linarith
          · rw [if_neg hjw]
            exact hw j
      · intro j hj
        by_cases hjw : max (N - cfg.REBALANCE_WINDOW) (i + 1) ≤ j ∧ j < N
        · have hji : ¬ j = i := by omega
          rw [if_neg hji, if_pos hjw]
          exact h4 j (Finset.mem_Ico.mpr hjw)
        · rw [if_neg hjw] at hj
          have hmw : cfg.MIN_WEIGHT ≤ w j := hfl j hj
          by_cases hji : j = i
          · subst hji
            rw [if_pos rfl]
            calc cfg.MIN_WEIGHT ≤ w j := hmw
              _ ≤ w j * (1 + cfg.ALPHA * ((r.ma100 - r.btc_close) / r.std100)) :=
                le_mul_of_one_le_right (hw j) hmul
          · rw [if_neg hji, if_neg hjw]
            exact hmw
    · exact ⟨hw, hfl⟩
    · exact ih (i + 1) w fl hw hfl

/-- The instrumented scan of one cycle group, from the uniform initial state
with no day yet reduced. -/
def cycle_tr (cfg : Config) (g : List PRow) : (ℕ → ℚ) × (ℕ → Bool) :=
  boost_aux_tr cfg g g.length g.length 0 (fun _ => 1 / (g.length : ℚ)) (fun _ => false)

/-- All weights produced by the per-cycle scan are non-negative. -/
theorem cycle_weights_fn_nonneg (cfg : Config) (g : List PRow)
    (hα : 0 ≤ cfg.ALPHA) (hm : 0 ≤ cfg.MIN_WEIGHT) :
    ∀ j, 0 ≤ cycle_weights_fn cfg g j := by
  intro j
  have h := (boost_aux_tr_invariant cfg g g.length hα hm g.length 0
    (fun _ => 1 / (g.length : ℚ)) (fun _ => false)
    (fun _ => one_div_nonneg.mpr (Nat.cast_nonneg _))
    (fun _ hc => absurd hc (by simp))).1 j
  rwa [boost_aux_tr_fst] at h

/-- `wlookup` only returns pairs present in the association list. -/
theorem wlookup_mem {d : Date} {v : ℚ} :
    ∀ {l : List (Date × ℚ)}, wlookup d l = some v → (d, v) ∈ l := by
  intro l
  induction l with
  | nil => intro h; exact absurd h (by simp [wlookup])
  | cons p t ih =>
    intro h
    obtain ⟨d', v'⟩ := p
    rw [wlookup] at h
    split_ifs at h with hd
    · subst hd
      obtain rfl : v' = v := by simpa using h
      exact List.mem_cons_self _ _
    · exact List.mem_cons_of_mem _ (ih h)

/-- Claim C5: every weight emitted by `compute_weights` is non-negative, and
every day reduced by a committed redistribution ends its cycle holding at
least `MIN_WEIGHT` (assuming `MIN_WEIGHT ≥ 0` and `ALPHA ≥ 0`); the
instrumented scan projects onto the real one. -/
theorem claim5_nonneg_floor (cfg : Config) (df : List PRow)
    (hα : 0 ≤ cfg.ALPHA) (hm : 0 ≤ cfg.MIN_WEIGHT) :
    (∀ p ∈ compute_weights cfg df, ∀ q : ℚ, p.2 = some q → 0 ≤ q) ∧
    (∀ g : List PRow, (cycle_tr cfg g).1 = cycle_weights_fn cfg g) ∧
    (∀ g : List PRow, ∀ j : ℕ, (cycle_tr cfg g).2 j = true →
      cfg.MIN_WEIGHT ≤ cycle_weights_fn cfg g j) := by
  refine ⟨?_, ?_, ?_⟩
  · intro p hp q hq
    unfold compute_weights at hp
    rw [List.mem_map] at hp
    obtain ⟨row, hrow, hpe⟩ := hp
    subst hpe
    simp only at hq
    have hmem := wlookup_mem hq
    rw [List.mem_flatten] at hmem
    obtain ⟨zl, hzl, hqz⟩ := hmem
    rw [List.mem_map] at hzl
    obtain ⟨g, hg, hze⟩ := hzl
    subst hze
    have hq2 : q ∈ temp_weights_list cfg g := (List.of_mem_zip hqz).2
    unfold temp_weights_list at hq2
    rw [List.mem_map] at hq2
    obtain ⟨j, _, hje⟩ := hq2
    rw [← hje]
    exact cycle_weights_fn_nonneg cfg g hα hm j
  · intro g
    exact boost_aux_tr_fst cfg g g.length g.length 0 _ _
  · intro g j hj
    have h := (boost_aux_tr_invariant cfg g g.length hα hm g.length 0
      (fun _ => 1 / (g.length : ℚ)) (fun _ => false)
      (fun _ => one_div_nonneg.mpr (Nat.cast_nonneg _))
      (fun _ hc => absurd hc (by simp))).2 j hj
    unfold cycle_weights_fn
    rwa [boost_aux_tr_fst] at h

theorem claim5_witness :
    (0 : ℚ) ≤ cfgC4.ALPHA ∧ (0 : ℚ) ≤ cfgC4.MIN_WEIGHT ∧
    (cycle_tr cfgC4 dfC4).1 = cycle_weights_fn cfgC4 dfC4 :=
  ⟨by norm_num [cfgC4], by norm_num [cfgC4],
    (claim5_nonneg_floor cfgC4 dfC4 (by norm_num [cfgC4])
      (by norm_num [cfgC4])).2.1 dfC4⟩

/-! ## Degenerate cycles (C1) -/

/-- Claim C1 (amended): a cycle with `high == low` still yields a normal
`CycleRow`; its percentile fields carry the division-by-zero artifact
(`none`, i.e. NaN/∞).  No explicit degenerate-cycle failure exists in the
evaluator. -/
theorem claim1_degenerate_artifact (lab : ℤ × ℤ) (prices ws : List ℚ)
    (h : list_max prices = list_min prices) :
    (mk_cycle_row lab prices ws).uniform_pct = none ∧
    (mk_cycle_row lab prices ws).dynamic_pct = none ∧
    (mk_cycle_row lab prices ws).excess_pct = none := by
  unfold mk_cycle_row
  simp [h, fdiv]

theorem claim1_witness :
    list_max [(50 : ℚ), 50] = list_min [(50 : ℚ), 50] ∧
    (mk_cycle_row (2020, 2023) [(50 : ℚ), 50] [(1 : ℚ), 0]).uniform_pct = none :=
  ⟨by decide, (claim1_degenerate_artifact (2020, 2023) [50, 50] [1, 0] (by decide)).1⟩

/-- A one-day (hence degenerate, `high == low`) evaluation window. -/
def cfgC1 : Config := ⟨⟨2020, 1, 1⟩, ⟨2020, 12, 31⟩, 1, 10, 0⟩

/-- A single-day series priced 50: its only cycle has `high == low`. -/
def dfC1 : List PRow := [⟨⟨2020, 3, 1⟩, 50, 0, 0⟩]

/-- A strategy output covering the whole window. -/
def wrawC1 : List (Date × Option ℚ) := [(⟨2020, 3, 1⟩, some 1)]

/-- Claim C1 is false of the code: on a degenerate (single-day) cycle,
`compute_cycle_spd` succeeds and returns a metrics row whose percentile
fields are the division-by-zero artifact, instead of surfacing an explicit
degenerate-cycle failure. -/
theorem claim1_counterexample :
    compute_cycle_spd cfgC1 dfC1 wrawC1 =
      some [⟨(2020, 2020), 2000000, 2000000, 2000000, 2000000, none, none, none⟩] := by
  with_unfolding_all rfl

/-! ## The summary reducer on empty input (C8) -/

/-- Claim C8 is false of the code: the reducer applied to an empty
cycle-metrics sequence yields NaN statistics (every field `none`), not an
explicit insufficient-data failure. -/
theorem claim8_counterexample :
    backtest_metrics [] =
      (⟨none, none, none, none⟩, ⟨none, none, none, none⟩) := rfl

theorem col_stats_defined {l : List ℚ} (h : l ≠ []) :
    (col_stats l).min.isSome = true ∧ (col_stats l).max.isSome = true ∧
    (col_stats l).mean.isSome = true ∧ (col_stats l).median.isSome = true := by
  cases l with
  | nil => exact absurd rfl h
  | cons x xs =>
    refine ⟨rfl, rfl, rfl, ?_⟩
    show (col_median (x :: xs)).isSome = true
    simp only [col_median]
    split <;> rfl

/-- Claim C8 (amended): on an empty cycle-metrics sequence the reducer
produces NaN statistics rather than failing; on a non-empty sequence every
`dynamic_spd` statistic is defined, and the `dynamic_pct` statistics are
defined whenever at least one cycle's `dynamic_pct` is (pandas aggregation
skips NaN entries). -/
theorem claim8_nonempty_defined (rows : List CycleRow) (h : rows ≠ []) :
    ((backtest_metrics rows).1.min.isSome = true ∧
     (backtest_metrics rows).1.max.isSome = true ∧
     (backtest_metrics rows).1.mean.isSome = true ∧
     (backtest_metrics rows).1.median.isSome = true) ∧
    ((rows.map (fun r => r.dynamic_pct)).reduceOption ≠ [] →
      (backtest_metrics rows).2.min.isSome = true ∧
      (backtest_metrics rows).2.max.isSome = true ∧
      (backtest_metrics rows).2.mean.isSome = true ∧
      (backtest_metrics rows).2.median.isSome = true) := by
  constructor
  · have hne : rows.map (fun r => r.dynamic_spd) ≠ [] :=
      fun hc => h (List.map_eq_nil_iff.mp hc)
    exact col_stats_defined hne
  · intro hpct
    exact col_stats_defined hpct

/-- A single concrete metrics row for the `claim8_nonempty_defined`
witness. -/
def rowC8 : CycleRow := ⟨(2013, 2016), 1, 2, 3/2, 3/2, some 50, some 50, some 0⟩

theorem claim8_witness :
    ([rowC8] : List CycleRow) ≠ [] ∧
    (backtest_metrics [rowC8]).1.min.isSome = true ∧
    (backtest_metrics [rowC8]).2.min.isSome = true := by
  refine ⟨by decide, (claim8_nonempty_defined [rowC8] (by decide)).1.1, ?_⟩
  exact ((claim8_nonempty_defined [rowC8] (by decide)).2 (by decide)).1

/-! ## SPD bounds per cycle (C6) -/

theorem le_foldl_max (xs : List ℚ) : ∀ a : ℚ, a ≤ xs.foldl max a := by
  induction xs with
  | nil => intro a; exact le_refl a
  | cons x xs ih =>
    intro a
    exact le_trans (le_max_left a x) (ih (max a x))

theorem mem_le_foldl_max (xs : List ℚ) :
    ∀ (a x : ℚ), x ∈ xs → x ≤ xs.foldl max a := by
  induction xs with
  | nil => intro a x hx; exact absurd hx (List.not_mem_nil x)
  | cons y xs ih =>
    intro a x hx
    rcases List.mem_cons.mp hx with h | h
    · subst h
      exact le_trans (le_max_right a x) (le_foldl_max xs _)
    · exact ih _ x h

theorem foldl_max_mem (xs : List ℚ) : ∀ a : ℚ, xs.foldl max a = a ∨ xs.foldl max a ∈ xs := by
  induction xs with
  | nil => intro a; exact Or.inl rfl
  | cons x xs ih =>
    intro a
    rcases ih (max a x) with h | h
    · rcases le_total a x with hax | hax
      · right
        rw [List.foldl_cons, h, max_eq_right hax]
        exact List.mem_cons_self _ _
      · left
        rw [List.foldl_cons, h, max_eq_left hax]
    · right
      exact List.mem_cons_of_mem _ h

theorem foldl_min_le (xs : List ℚ) : ∀ a : ℚ, xs.foldl min a ≤ a := by
  induction xs with
  | nil => intro a; exact le_refl a
  | cons x xs ih =>
    intro a
    exact le_trans (ih (min a x)) (min_le_left a x)

theorem foldl_min_le_mem (xs : List ℚ) :
    ∀ (a x : ℚ), x ∈ xs → xs.foldl min a ≤ x := by
  induction xs with
  | nil => intro a x hx; exact absurd hx (List.not_mem_nil x)
  | cons y xs ih =>
    intro a x hx
    rcases List.mem_cons.mp hx with h | h
    · subst h
      exact le_trans (foldl_min_le xs _) (min_le_right a x)
    · exact ih _ x h

theorem foldl_min_mem (xs : List ℚ) : ∀ a : ℚ, xs.foldl min a = a ∨ xs.foldl min a ∈ xs := by
  induction xs with
  | nil => intro a; exact Or.inl rfl
  | cons x xs ih =>
    intro a
    rcases ih (min a x) with h | h
    · rcases le_total a x with hax | hax
      · left
        rw [List.foldl_cons, h, min_eq_left hax]
      · right
        rw [List.foldl_cons, h, min_eq_right hax]
        exact List.mem_cons_self _ _
    · right
      exact List.mem_cons_of_mem _ h

theorem le_list_max {l : List ℚ} {x : ℚ} (hx : x ∈ l) : x ≤ list_max l := by
  cases l with
  | nil => exact absurd hx (List.not_mem_nil x)
  | cons y ys =>
    rcases List.mem_cons.mp hx with h | h
    · subst h; exact le_foldl_max ys x
    · exact mem_le_foldl_max ys y x h

theorem list_min_le {l : List ℚ} {x : ℚ} (hx : x ∈ l) : list_min l ≤ x := by
  cases l with
  | nil => exact absurd hx (List.not_mem_nil x)
  | cons y ys =>
    rcases List.mem_cons.mp hx with h | h
    · subst h; exact foldl_min_le ys x
    · exact foldl_min_le_mem ys y x h

theorem list_max_mem {l : List ℚ} (h : l ≠ []) : list_max l ∈ l := by
  cases l with
  | nil => exact absurd rfl h
  | cons y ys =>
    rcases foldl_max_mem ys y with h2 | h2
    · rw [list_max, h2]; exact List.mem_cons_self _ _
    · exact List.mem_cons_of_mem _ (show ys.foldl max y ∈ ys from h2)

theorem list_min_mem {l : List ℚ} (h : l ≠ []) : list_min l ∈ l := by
  cases l with
  | nil => exact absurd rfl h
  | cons y ys =>
    rcases foldl_min_mem ys y with h2 | h2
    · rw [list_min, h2]; exact List.mem_cons_self _ _
    · exact List.mem_cons_of_mem _ (show ys.foldl min y ∈ ys from h2)

/-- A weighted sum with non-negative weights of values inside `[lo, hi]` is
bounded by `lo * Σw` and `hi * Σw`. -/
theorem dot_sum_bounds (lo hi : ℚ) :
    ∀ (ws inv : List ℚ), ws.length = inv.length →
      (∀ w ∈ ws, 0 ≤ w) → (∀ x ∈ inv, lo ≤ x ∧ x ≤ hi) →
      lo * ws.sum ≤ ((ws.zip inv).map (fun q => q.1 * q.2)).sum ∧
      ((ws.zip inv).map (fun q => q.1 * q.2)).sum ≤ hi * ws.sum := by
  intro ws
  induction ws with
  | nil => intro inv _ _ _; simp
  | cons w ws ih =>
    intro inv hlen hw hx
    cases inv with
    | nil => simp at hlen
    | cons x inv =>
      simp only [List.zip_cons_cons, List.map_cons, List.sum_cons]
      have h1 := ih inv (by simpa using hlen)
        (fun a ha => hw a (List.mem_cons_of_mem _ ha))
        (fun a ha => hx a (List.mem_cons_of_mem _ ha))
      have hw0 : 0 ≤ w := hw w (List.mem_cons_self _ _)
      have hx0 := hx x (List.mem_cons_self _ _)
      have hl : w * lo ≤ w * x := mul_le_mul_of_nonneg_left hx0.1 hw0
      have hr : w * x ≤ w * hi := mul_le_mul_of_nonneg_left hx0.2 hw0
      constructor
      · have := h1.1
        nlinarith
      · have := h1.2
        nlinarith

/-- Claim C6: for a cycle with positive prices and non-negative weights
summing to 1, the computed metrics satisfy
`min_spd ≤ uniform_spd, dynamic_spd ≤ max_spd`, and when `low < high` both
percentile fields are defined and lie in `[0, 100]`. -/
theorem claim6_spd_bounds (lab : ℤ × ℤ) (prices ws : List ℚ) (hne : prices ≠ [])
    (hpos : ∀ p ∈ prices, 0 < p) (hlen : ws.length = prices.length)
    (hwnn : ∀ w ∈ ws, 0 ≤ w) (hsum : ws.sum = 1) :
    ((mk_cycle_row lab prices ws).min_spd ≤ (mk_cycle_row lab prices ws).uniform_spd ∧
     (mk_cycle_row lab prices ws).uniform_spd ≤ (mk_cycle_row lab prices ws).max_spd ∧
     (mk_cycle_row lab prices ws).min_spd ≤ (mk_cycle_row lab prices ws).dynamic_spd ∧
     (mk_cycle_row lab prices ws).dynamic_spd ≤ (mk_cycle_row lab prices ws).max_spd) ∧
    (list_min prices < list_max prices →
      ∃ u d : ℚ, (mk_cycle_row lab prices ws).uniform_pct = some u ∧
        0 ≤ u ∧ u ≤ 100 ∧
        (mk_cycle_row lab prices ws).dynamic_pct = some d ∧ 0 ≤ d ∧ d ≤ 100) := by
  have hlowpos : 0 < list_min prices := hpos _ (list_min_mem hne)
  have hhighpos : 0 < list_max prices := hpos _ (list_max_mem hne)
  have hn : 0 < prices.length := List.length_pos.mpr hne
  have hnq : (0 : ℚ) < (prices.length : ℚ) := by exact_mod_cast hn
  set lo := (1 / list_max prices) * 100000000 with hlo
  set hi := (1 / list_min prices) * 100000000 with hhi
  have hinv : ∀ x ∈ prices.map (fun p => (1 / p) * 100000000), lo ≤ x ∧ x ≤ hi := by
    intro x hx
    rw [List.mem_map] at hx
    obtain ⟨p, hp, hpe⟩ := hx
    subst hpe
    have hppos := hpos p hp
    constructor
    · exact mul_le_mul_of_nonneg_right
        (one_div_le_one_div_of_le hppos (le_list_max hp)) (by norm_num)
    · exact mul_le_mul_of_nonneg_right
        (one_div_le_one_div_of_le hlowpos (list_min_le hp)) (by norm_num)
  have hlohi : lo ≤ hi := by
    have := hinv _ (List.mem_map_of_mem _ (list_max_mem hne))
    linarith [this.1, this.2]
  have hinvlen : (prices.map (fun p => (1 / p) * 100000000)).length = prices.length :=
    List.length_map _ _
  -- uniform_spd bounds
  have husum_lo : (prices.length : ℚ) * lo ≤ (prices.map (fun p => (1 / p) * 100000000)).sum := by
    have := List.card_nsmul_le_sum (l := prices.map (fun p => (1 / p) * 100000000))
      (n := lo) (fun x hx => (hinv x hx).1)
    rwa [hinvlen, nsmul_eq_mul] at this
  have husum_hi : (prices.map (fun p => (1 / p) * 100000000)).sum ≤ (prices.length : ℚ) * hi := by
    have := List.sum_le_card_nsmul (l := prices.map (fun p => (1 / p) * 100000000))
      (n := hi) (fun x hx => (hinv x hx).2)
    rwa [hinvlen, nsmul_eq_mul] at this
  have huni_lo : lo ≤ (prices.map (fun p => (1 / p) * 100000000)).sum / (prices.length : ℚ) := by
    rw [le_div_iff₀ hnq]
    linarith
  have huni_hi : (prices.map (fun p => (1 / p) * 100000000)).sum / (prices.length : ℚ) ≤ hi := by
    rw [div_le_iff₀ hnq]
    linarith
  -- dynamic_spd bounds
  have hdyn := dot_sum_bounds lo hi ws (prices.map (fun p => (1 / p) * 100000000))
    (by rw [hinvlen, hlen]) hwnn hinv
  rw [hsum, mul_one, mul_one] at hdyn
  unfold mk_cycle_row
  refine ⟨⟨huni_lo, huni_hi, hdyn.1, hdyn.2⟩, ?_⟩
  intro hlth
  have hrange : (0 : ℚ) < hi - lo := by
    have h1 : 1 / list_max prices < 1 / list_min prices :=
      one_div_lt_one_div_of_lt hlowpos hlth
    rw [hlo, hhi]
    nlinarith
  have hrne : hi - lo ≠ 0 := ne_of_gt hrange
  refine ⟨((prices.map (fun p => (1 / p) * 100000000)).sum / (prices.length : ℚ) - lo) /
      (hi - lo) * 100,
    (((ws.zip (prices.map (fun p => (1 / p) * 100000000))).map
      (fun q => q.1 * q.2)).sum - lo) / (hi - lo) * 100, ?_, ?_, ?_, ?_, ?_, ?_⟩
  · show (fdiv _ (hi - lo)).map (fun x => x * 100) = _
    rw [fdiv, if_neg hrne, Option.map_some']
  · exact mul_nonneg (div_nonneg (sub_nonneg.mpr huni_lo) hrange.le) (by norm_num)
  · have hq : ((prices.map (fun p => (1 / p) * 100000000)).sum / (prices.length : ℚ) - lo) /
        (hi - lo) ≤ 1 := by
      rw [div_le_one hrange]
      linarith
    nlinarith [div_nonneg (sub_nonneg.mpr huni_lo) hrange.le]
  · show (fdiv _ (hi - lo)).map (fun x => x * 100) = _
    rw [fdiv, if_neg hrne, Option.map_some']
  · exact mul_nonneg (div_nonneg (sub_nonneg.mpr hdyn.1) hrange.le) (by norm_num)
  · have hq : (((ws.zip (prices.map (fun p => (1 / p) * 100000000))).map
        (fun q => q.1 * q.2)).sum - lo) / (hi - lo) ≤ 1 := by
      rw [div_le_one hrange]
      linarith [hdyn.2]
    nlinarith [div_nonneg (sub_nonneg.mpr hdyn.1) hrange.le]

/-! ## The cycle partition of `compute_cycle_spd` -/

theorem foldl_dmin_le_init (t : List PRow) :
    ∀ a : Date, dle (t.foldl (fun acc s => dmin acc s.date) a) a = true := by
  induction t with
  | nil => intro a; exact dle_refl a
  | cons s t ih =>
    intro a
    exact dle_trans (ih (dmin a s.date)) (dmin_le_left _ _)

theorem foldl_dmin_le_mem (t : List PRow) :
    ∀ (a : Date) (r : PRow), r ∈ t →
      dle (t.foldl (fun acc s => dmin acc s.date) a) r.date = true := by
  induction t with
  | nil => intro a r hr; exact absurd hr (List.not_mem_nil r)
  | cons s t ih =>
    intro a r hr
    rcases List.mem_cons.mp hr with h | h
    · subst h
      exact dle_trans (foldl_dmin_le_init t _) (dmin_le_right _ _)
    · exact ih _ r h

theorem foldl_dmin_mem (t : List PRow) :
    ∀ a : Date, t.foldl (fun acc s => dmin acc s.date) a = a ∨
      t.foldl (fun acc s => dmin acc s.date) a ∈ t.map (fun r => r.date) := by
  induction t with
  | nil => intro a; exact Or.inl rfl
  | cons s t ih =>
    intro a
    rw [List.foldl_cons, List.map_cons]
    rcases ih (dmin a s.date) with h | h
    · rw [h]
      unfold dmin
      split
      · exact Or.inl rfl
      · exact Or.inr (List.mem_cons_self _ _)
    · exact Or.inr (List.mem_cons_of_mem _ h)

theorem min_date_le {W : List PRow} {r : PRow} (hr : r ∈ W) :
    dle (min_date W) r.date = true := by
  cases W with
  | nil => exact absurd hr (List.not_mem_nil r)
  | cons s t =>
    rcases List.mem_cons.mp hr with h | h
    · subst h
      exact foldl_dmin_le_init t r.date
    · exact foldl_dmin_le_mem t s.date r h

theorem min_date_mem {W : List PRow} (hW : W ≠ []) :
    min_date W ∈ W.map (fun r => r.date) := by
  cases W with
  | nil => exact absurd rfl hW
  | cons s t =>
    rw [List.map_cons]
    rcases foldl_dmin_mem t s.date with h | h
    · rw [min_date, h]
      exact List.mem_cons_self _ _
    · exact List.mem_cons_of_mem _ (show _ ∈ _ from h)

theorem foldl_dmax_ge_init (t : List PRow) :
    ∀ a : Date, dle a (t.foldl (fun acc s => dmax acc s.date) a) = true := by
  induction t with
  | nil => intro a; exact dle_refl a
  | cons s t ih =>
    intro a
    refine dle_trans ?_ (ih (dmax a s.date))
    unfold dmax
    split
    · assumption
    · exact dle_refl a

theorem foldl_dmax_ge_mem (t : List PRow) :
    ∀ (a : Date) (r : PRow), r ∈ t →
      dle r.date (t.foldl (fun acc s => dmax acc s.date) a) = true := by
  induction t with
  | nil => intro a r hr; exact absurd hr (List.not_mem_nil r)
  | cons s t ih =>
    intro a r hr
    rcases List.mem_cons.mp hr with h | h
    · subst h
      refine dle_trans ?_ (foldl_dmax_ge_init t (dmax a r.date))
      unfold dmax
      split
      · exact dle_refl r.date
      · next hc => exact dle_of_dlt (dlt_of_dle_not_dle hc)
    · exact ih _ r h

theorem foldl_dmax_mem (t : List PRow) :
    ∀ a : Date, t.foldl (fun acc s => dmax acc s.date) a = a ∨
      t.foldl (fun acc s => dmax acc s.date) a ∈ t.map (fun r => r.date) := by
  induction t with
  | nil => intro a; exact Or.inl rfl
  | cons s t ih =>
    intro a
    rw [List.foldl_cons, List.map_cons]
    rcases ih (dmax a s.date) with h | h
    · rw [h]
      unfold dmax
      split
      · exact Or.inr (List.mem_cons_self _ _)
      · exact Or.inl rfl
    · exact Or.inr (List.mem_cons_of_mem _ h)

theorem le_max_date {W : List PRow} {r : PRow} (hr : r ∈ W) :
    dle r.date (max_date W) = true := by
  cases W with
  | nil => exact absurd hr (List.not_mem_nil r)
  | cons s t =>
    rcases List.mem_cons.mp hr with h | h
    · subst h
      exact foldl_dmax_ge_init t r.date
    · exact foldl_dmax_ge_mem t s.date r h

theorem max_date_mem {W : List PRow} (hW : W ≠ []) :
    max_date W ∈ W.map (fun r => r.date) := by
  cases W with
  | nil => exact absurd rfl hW
  | cons s t =>
    rw [List.map_cons]
    rcases foldl_dmax_mem t s.date with h | h
    · rw [max_date, h]
      exact List.mem_cons_self _ _
    · exact List.mem_cons_of_mem _ (show _ ∈ _ from h)

/-- Every row of every emitted cycle slice comes from the window, lies at or
after the cycle iteration's `current` date, and at or before the data's last
date. -/
theorem spd_cycles_aux_mem (W : List PRow) (maxD : Date) :
    ∀ (fuel : ℕ) (current : Date) (t : Date × Date × List PRow),
      t ∈ spd_cycles_aux W maxD fuel current → ∀ r ∈ t.2.2,
        r ∈ W ∧ dle current r.date = true ∧ dle r.date maxD = true := by
  intro fuel
  induction fuel with
  | zero => intro current t ht; exact absurd ht (List.not_mem_nil t)
  | succ fuel ih =>
    intro current t ht r hr
    simp only [spd_cycles_aux] at ht
    split_ifs at ht with h1 h2
    · exact absurd ht (List.not_mem_nil t)
    · rcases List.mem_cons.mp ht with h | h
      · subst h
        have := List.mem_filter.mp hr
        rw [Bool.and_eq_true] at this
        refine ⟨this.1, this.2.1, ?_⟩
        exact dle_trans this.2.2 (dmin_le_right _ _)
      · have := ih (addYears 4 current) t h r hr
        exact ⟨this.1,
          dle_trans (dle_of_dlt (dlt_addYears (by norm_num) current)) this.2.1,
          this.2.2⟩
    · exact absurd ht (List.not_mem_nil t)

/-- Rows of distinct cycle slices are strictly ordered: the partition is
pairwise disjoint. -/
theorem spd_cycles_aux_pairwise (W : List PRow) (maxD : Date) :
    ∀ (fuel : ℕ) (current : Date),
      List.Pairwise (fun t₁ t₂ => ∀ r₁ ∈ t₁.2.2, ∀ r₂ ∈ t₂.2.2,
        dlt r₁.date r₂.date = true) (spd_cycles_aux W maxD fuel current) := by
  intro fuel
  induction fuel with
  | zero => intro current; exact List.Pairwise.nil
  | succ fuel ih =>
    intro current
    simp only [spd_cycles_aux]
    split_ifs with h1 h2
    · exact List.Pairwise.nil
    · refine List.Pairwise.cons ?_ (ih (addYears 4 current))
      intro t ht r₁ hr₁ r₂ hr₂
      have hmem := List.mem_filter.mp hr₁
      rw [Bool.and_eq_true] at hmem
      have hle : dle r₁.date (predDay (addYears 4 current)) = true :=
        dle_trans hmem.2.2 (dmin_le_left _ _)
      have hlt : dlt r₁.date (addYears 4 current) = true :=
        dlt_of_dle_of_dlt hle (predDay_lt _)
      exact dlt_of_dlt_of_dle hlt
        (spd_cycles_aux_mem W maxD fuel (addYears 4 current) t ht r₂ hr₂).2.1
    · exact List.Pairwise.nil

/-- Coverage: if no nominal cycle slice up to the data's end is empty (so the
loop never breaks early), then every window row lands in some emitted
slice. -/
theorem spd_cycles_aux_cover (W : List PRow) (maxD : Date)
    (hv : ∀ r ∈ W, ValidDate r.date)
    (hmax : ∀ r ∈ W, dle r.date maxD = true) :
    ∀ (fuel : ℕ) (current : Date), ValidDate current →
      spd_fuel current maxD ≤ fuel →
      (∀ k : ℕ, k < fuel → dle ((addYears 4)^[k] current) maxD = true →
        (W.filter (fun r => dle ((addYears 4)^[k] current) r.date &&
          dle r.date (dmin (predDay (addYears 4 ((addYears 4)^[k] current)))
            maxD))).isEmpty = false) →
      ∀ r ∈ W, dle current r.date = true →
        ∃ t ∈ spd_cycles_aux W maxD fuel current, r ∈ t.2.2 := by
  intro fuel
  induction fuel with
  | zero =>
    intro current _ hb _ r hr hcur
    exfalso
    have h1 : dle current maxD = true := dle_trans hcur (hmax r hr)
    rw [dle_iff] at h1
    unfold spd_fuel at hb
    omega
  | succ fuel ih =>
    intro current hvc hb hne r hr hcur
    have hcm : dle current maxD = true := dle_trans hcur (hmax r hr)
    have hslice := hne 0 (by omega) (by rwa [Function.iterate_zero_apply])
    rw [Function.iterate_zero_apply] at hslice
    rw [spd_cycles_aux]
    rw [if_pos hcm, if_neg (by rw [hslice]; exact Bool.false_ne_true)]
    by_cases hre : dle r.date (dmin (predDay (addYears 4 current)) maxD) = true
    · refine ⟨_, List.mem_cons_self _ _, ?_⟩
      exact List.mem_filter.mpr ⟨hr, by rw [Bool.and_eq_true]; exact ⟨hcur, hre⟩⟩
    · have hnp : ¬ dle r.date (predDay (addYears 4 current)) = true := by
        intro hc
        exact hre (dle_dmin hc (hmax r hr))
      have hadj : dle (addYears 4 current) r.date = true :=
        predDay_adjacent (addYears_valid 4 hvc) (hv r hr) (dlt_of_dle_not_dle hnp)
      have hcmy : current.year ≤ maxD.year := by
        rw [dle_iff] at hcm; omega
      have hb' : spd_fuel (addYears 4 current) maxD ≤ fuel := by
        unfold spd_fuel at *
        rw [addYears_year]
        omega
      have hne' : ∀ k : ℕ, k < fuel →
          dle ((addYears 4)^[k] (addYears 4 current)) maxD = true →
          (W.filter (fun r => dle ((addYears 4)^[k] (addYears 4 current)) r.date &&
            dle r.date (dmin (predDay (addYears 4 ((addYears 4)^[k] (addYears 4 current))))
              maxD))).isEmpty = false := by
        intro k hk
        have := hne (k + 1) (by omega)
        rwa [Function.iterate_succ_apply] at this
      obtain ⟨t, ht, hrt⟩ := ih (addYears 4 current) (addYears_valid 4 hvc) hb' hne' r hr hadj
      exact ⟨t, List.mem_cons_of_mem _ ht, hrt⟩

/-- Claim C9 (amended): the cycle date ranges are always pairwise disjoint
and drawn from the window; provided additionally that no nominal cycle slice
up to the data's last date is empty (the loop never hits its early `break`
with data remaining), their concatenation is exactly the set of window
dates. -/
theorem claim9_partition_exact (cfg : Config) (df : List PRow)
    (hW : window_rows cfg df ≠ [])
    (hv : ∀ r ∈ window_rows cfg df, ValidDate r.date)
    (hne : ∀ k : ℕ,
      k < spd_fuel (min_date (window_rows cfg df)) (max_date (window_rows cfg df)) →
      dle ((addYears 4)^[k] (min_date (window_rows cfg df)))
        (max_date (window_rows cfg df)) = true →
      ((window_rows cfg df).filter (fun r =>
        dle ((addYears 4)^[k] (min_date (window_rows cfg df))) r.date &&
        dle r.date (dmin
          (predDay (addYears 4 ((addYears 4)^[k] (min_date (window_rows cfg df)))))
          (max_date (window_rows cfg df))))).isEmpty = false) :
    (∀ d : Date,
      d ∈ ((spd_slices (window_rows cfg df)).map (List.map (fun r => r.date))).flatten ↔
      d ∈ (window_rows cfg df).map (fun r => r.date)) ∧
    List.Pairwise (fun c₁ c₂ => ∀ d ∈ c₁, d ∉ c₂)
      ((spd_slices (window_rows cfg df)).map (List.map (fun r => r.date))) := by
  have hmax : ∀ r ∈ window_rows cfg df, dle r.date (max_date (window_rows cfg df)) = true :=
    fun r hr => le_max_date hr
  have hvmin : ValidDate (min_date (window_rows cfg df)) := by
    have := min_date_mem hW
    rw [List.mem_map] at this
    obtain ⟨r, hr, hre⟩ := this
    rw [← hre]
    exact hv r hr
  constructor
  · intro d
    constructor
    · intro hd
      rw [List.mem_flatten] at hd
      obtain ⟨c, hc, hdc⟩ := hd
      rw [List.mem_map] at hc
      obtain ⟨s, hs, hce⟩ := hc
      subst hce
      unfold spd_slices at hs
      rw [List.mem_map] at hs
      obtain ⟨t, ht, hse⟩ := hs
      subst hse
      rw [List.mem_map] at hdc
      obtain ⟨r, hrt, hrd⟩ := hdc
      have := spd_cycles_aux_mem (window_rows cfg df) _ _ _ t ht r hrt
      rw [← hrd]
      exact List.mem_map_of_mem _ this.1
    · intro hd
      rw [List.mem_map] at hd
      obtain ⟨r, hr, hrd⟩ := hd
      obtain ⟨t, ht, hrt⟩ := spd_cycles_aux_cover (window_rows cfg df) _ hv hmax
        _ _ hvmin (le_refl _) hne r hr (min_date_le hr)
      rw [List.mem_flatten]
      refine ⟨(t.2.2).map (fun r => r.date), ?_, ?_⟩
      · exact List.mem_map_of_mem _ (List.mem_map_of_mem _ ht)
      · rw [← hrd]
        exact List.mem_map_of_mem _ hrt
  · unfold spd_slices spd_cycles
    rw [List.map_map]
    refine List.Pairwise.map _ ?_
      (spd_cycles_aux_pairwise (window_rows cfg df) _ _ _)
    intro t₁ t₂ hstrict d hd1 hd2
    simp only [Function.comp] at hd1 hd2
    rw [List.mem_map] at hd1 hd2
    obtain ⟨r₁, hr₁, he₁⟩ := hd1
    obtain ⟨r₂, hr₂, he₂⟩ := hd2
    have := hstrict r₁ hr₁ r₂ hr₂
    rw [he₁, he₂] at this
    exact dlt_irrefl d this

/-- Window with a four-year data gap for `claim9_counterexample`. -/
def cfgC9 : Config := ⟨⟨2013, 1, 1⟩, ⟨2024, 12, 31⟩, 1, 10, 0⟩

/-- Two data points more than one nominal cycle apart: the second nominal
cycle slice is empty, so the loop breaks before reaching the 2022 date. -/
def dfC9 : List PRow := [⟨⟨2013, 1, 1⟩, 100, 0, 0⟩, ⟨⟨2022, 1, 1⟩, 200, 0, 0⟩]

/-- Claim C9 is false of the code as stated: with a four-year gap in the
data, the loop's early `break` drops every later date — here 2022-01-01 is a
window date but belongs to no cycle. -/
theorem claim9_counterexample :
    (⟨2022, 1, 1⟩ : Date) ∈ (window_rows cfgC9 dfC9).map (fun r => r.date) ∧
    ¬ ((⟨2022, 1, 1⟩ : Date) ∈
      ((spd_slices (window_rows cfgC9 dfC9)).map (List.map (fun r => r.date))).flatten) := by
  with_unfolding_all decide

/-- Two data points in consecutive nominal cycles, for the
`claim9_partition_exact` witness. -/
def dfW9 : List PRow := [⟨⟨2013, 1, 1⟩, 100, 0, 0⟩, ⟨⟨2017, 2, 3⟩, 200, 0, 0⟩]

theorem claim9_witness :
    (⟨2017, 2, 3⟩ : Date) ∈
      ((spd_slices (window_rows cfgC9 dfW9)).map (List.map (fun r => r.date))).flatten :=
  ((claim9_partition_exact cfgC9 dfW9 (by with_unfolding_all decide)
    (by with_unfolding_all decide) (by with_unfolding_all decide)).1 _).mpr
    (by with_unfolding_all decide)

/-! ## Totality of the weight series over the window (C10) -/

theorem zip_mem_of_mem_left {l₁ : List Date} {l₂ : List ℚ} :
    ∀ (_ : l₁.length = l₂.length) (d : Date), d ∈ l₁ → ∃ q, (d, q) ∈ l₁.zip l₂ := by
  induction l₁ generalizing l₂ with
  | nil => intro _ d hd; exact absurd hd (List.not_mem_nil d)
  | cons x t ih =>
    intro h d hd
    cases l₂ with
    | nil => simp at h
    | cons q l₂ =>
      rcases List.mem_cons.mp hd with hh | hh
      · subst hh
        exact ⟨q, List.mem_cons_self _ _⟩
      · obtain ⟨q', hq'⟩ := ih (by simpa using h) d hh
        exact ⟨q', List.mem_cons_of_mem _ hq'⟩

theorem wlookup_isSome {d : Date} :
    ∀ {l : List (Date × ℚ)}, d ∈ l.map Prod.fst → (wlookup d l).isSome = true := by
  intro l
  induction l with
  | nil => intro h; exact absurd h (List.not_mem_nil d)
  | cons p t ih =>
    intro h
    obtain ⟨d', v'⟩ := p
    rw [wlookup]
    split_ifs with hd
    · rfl
    · apply ih
      rcases List.mem_cons.mp h with hh | hh
      · exact absurd hh.symm hd
      · exact hh

/-- Claim C10: `compute_weights` returns a weight series whose date domain is
exactly the window's dates, and every entry carries a defined value — every
cycle group's weight array is assigned back over the group's full index, and
the groups cover the window. -/
theorem claim10_total_domain (cfg : Config) (df : List PRow) :
    (compute_weights cfg df).map Prod.fst = (window_rows cfg df).map (fun r => r.date) ∧
    ∀ p ∈ compute_weights cfg df, p.2.isSome = true := by
  constructor
  · unfold compute_weights
    rw [List.map_map]
    rfl
  · intro p hp
    unfold compute_weights at hp
    rw [List.mem_map] at hp
    obtain ⟨r, hr, hpe⟩ := hp
    subst hpe
    apply wlookup_isSome
    have hc : cycle_label cfg r ∈
        ((window_rows cfg df).map (cycle_label cfg)).dedup.insertionSort (· ≤ ·) :=
      (List.perm_insertionSort _ _).mem_iff.mpr
        (List.mem_dedup.mpr (List.mem_map_of_mem _ hr))
    have hg : (window_rows cfg df).filter
        (fun s => decide (cycle_label cfg s = cycle_label cfg r)) ∈
        cycle_groups cfg df :=
      List.mem_map_of_mem _ hc
    have hrg : r ∈ (window_rows cfg df).filter
        (fun s => decide (cycle_label cfg s = cycle_label cfg r)) :=
      List.mem_filter.mpr ⟨hr, decide_eq_true rfl⟩
    set g := (window_rows cfg df).filter
      (fun s => decide (cycle_label cfg s = cycle_label cfg r)) with hgdef
    have hlen : (g.map (fun s => s.date)).length = (temp_weights_list cfg g).length := by
      rw [List.length_map]
      unfold temp_weights_list
      rw [List.length_map, List.length_range]
    obtain ⟨q, hq⟩ := zip_mem_of_mem_left hlen r.date (List.mem_map_of_mem _ hrg)
    have hassign : (r.date, q) ∈ ((cycle_groups cfg df).map
        (fun g => (g.map (fun s => s.date)).zip (temp_weights_list cfg g))).flatten := by
      rw [List.mem_flatten]
      exact ⟨_, List.mem_map_of_mem _ hg, hq⟩
    exact List.mem_map_of_mem Prod.fst hassign

/-! ## Ingestion: clipping, NaN fill, and missing dates (C7) -/

theorem ingest_fst (wraw : List (Date × Option ℚ)) :
    (ingest wraw).map Prod.fst = wraw.map Prod.fst := by
  unfold ingest
  rw [List.map_map]
  rfl

theorem optionTraverse_some {α β : Type} (f : α → Option β) :
    ∀ l : List α, (∀ a ∈ l, (f a).isSome = true) →
      ∃ l', optionTraverse f l = some l' ∧ l'.length = l.length := by
  intro l
  induction l with
  | nil => intro _; exact ⟨[], rfl, rfl⟩
  | cons a t ih =>
    intro h
    obtain ⟨b, hb⟩ := Option.isSome_iff_exists.mp (h a (List.mem_cons_self _ _))
    obtain ⟨l', hl', hlen⟩ := ih (fun x hx => h x (List.mem_cons_of_mem _ hx))
    refine ⟨b :: l', ?_, by simp [hlen]⟩
    rw [optionTraverse, hb, hl']

theorem predDay_addYears4_year (d : Date) :
    d.year + 3 ≤ (predDay (addYears 4 d)).year := by
  unfold predDay addYears
  split_ifs <;> dsimp only <;> omega

/-- A nonempty window always yields at least one cycle (the first slice
contains the window's first date). -/
theorem spd_cycles_ne_nil {W : List PRow} (hW : W ≠ []) : spd_cycles W ≠ [] := by
  have hmm := min_date_mem hW
  rw [List.mem_map] at hmm
  obtain ⟨r0, hr0, hr0e⟩ := hmm
  have hminmax : dle (min_date W) (max_date W) = true :=
    dle_trans (min_date_le hr0) (le_max_date hr0)
  have hbound : 1 ≤ spd_fuel (min_date W) (max_date W) := by
    rw [dle_iff] at hminmax
    unfold spd_fuel
    omega
  unfold spd_cycles
  obtain ⟨fuel, hfuel⟩ : ∃ fuel, spd_fuel (min_date W) (max_date W) = fuel + 1 :=
    ⟨spd_fuel (min_date W) (max_date W) - 1, by omega⟩
  rw [hfuel, spd_cycles_aux, if_pos hminmax]
  have hr0slice : r0 ∈ W.filter (fun r => dle (min_date W) r.date &&
      dle r.date (dmin (predDay (addYears 4 (min_date W))) (max_date W))) := by
    refine List.mem_filter.mpr ⟨hr0, ?_⟩
    rw [Bool.and_eq_true]
    refine ⟨min_date_le hr0, ?_⟩
    rw [hr0e]
    refine dle_dmin ?_ hminmax
    rw [dle_iff]
    have := predDay_addYears4_year (min_date W)
    omega
  have hcne : ¬ (W.filter (fun r => dle (min_date W) r.date &&
      dle r.date (dmin (predDay (addYears 4 (min_date W))) (max_date W)))).isEmpty = true := by
    intro hc
    rw [List.isEmpty_iff] at hc
    rw [hc] at hr0slice
    exact absurd hr0slice (List.not_mem_nil r0)
  rw [if_neg hcne]
  exact List.cons_ne_nil _ _

/-- A date absent from an association list's labels is a failed lookup. -/
theorem wlookup_eq_none {d : Date} :
    ∀ {l : List (Date × ℚ)}, d ∉ l.map Prod.fst → wlookup d l = none := by
  intro l
  induction l with
  | nil => intro _; rfl
  | cons p t ih =>
    intro h
    obtain ⟨d', v'⟩ := p
    rw [List.map_cons, List.mem_cons] at h
    push_neg at h
    rw [wlookup, if_neg (fun hc => h.1 hc.symm)]
    exact ih h.2

/-- One failing element aborts the whole traversal (a raised `KeyError`). -/
theorem optionTraverse_none {α β : Type} {f : α → Option β} {a : α} :
    ∀ {l : List α}, a ∈ l → f a = none → optionTraverse f l = none := by
  intro l
  induction l with
  | nil => intro h _; exact absurd h (List.not_mem_nil a)
  | cons b t ih =>
    intro h hfa
    simp only [optionTraverse]
    rcases List.mem_cons.mp h with hh | hh
    · subst hh
      rw [hfa]
    · rw [ih hh hfa]
      cases f b <;> rfl

/-- Claim C7 (amended): the ingestion boundary fills NaN values with 0 and
clips negative weights to 0 (every ingested weight is ≥ 0); covering every
window date is sufficient for `compute_cycle_spd` to succeed on a nonempty
window; and a window date the evaluator actually looks up (one lying in an
emitted cycle) that is absent from the strategy's output index is a lookup
failure, not weight 0.  Coverage of the full window is not necessary for
success: dates dropped by the cycle loop's early break are never looked
up. -/
theorem claim7_ingest_clip_cover (cfg : Config) (df : List PRow)
    (wraw : List (Date × Option ℚ)) :
    (∀ p ∈ ingest wraw, 0 ≤ p.2) ∧
    (window_rows cfg df ≠ [] →
      (∀ r ∈ window_rows cfg df, r.date ∈ wraw.map Prod.fst) →
      (compute_cycle_spd cfg df wraw).isSome = true) ∧
    (∀ t ∈ spd_cycles (window_rows cfg df), ∀ r ∈ t.2.2,
      r.date ∉ wraw.map Prod.fst → compute_cycle_spd cfg df wraw = none) := by
  refine ⟨?_, ?_, ?_⟩
  · intro p hp
    unfold ingest at hp
    rw [List.mem_map] at hp
    obtain ⟨a, _, hae⟩ := hp
    subst hae
    dsimp only
    split_ifs with h
    · exact le_refl 0
    · exact le_of_not_lt h
  · intro hW hcov
    have hlook : ∀ t ∈ spd_cycles (window_rows cfg df),
        ((optionTraverse (fun r => wlookup r.date (ingest wraw)) t.2.2).map
          (fun ws => mk_cycle_row (t.1.year, t.2.1.year)
            (t.2.2.map (fun r => r.btc_close)) ws)).isSome = true := by
      intro t ht
      rw [Option.isSome_map']
      obtain ⟨l', hl', _⟩ := optionTraverse_some _ t.2.2 (fun r hr => by
        apply wlookup_isSome
        rw [ingest_fst]
        exact hcov r (spd_cycles_aux_mem (window_rows cfg df) _ _ _ t ht r hr).1)
      rw [hl']
      rfl
    obtain ⟨rows, hrows, hrlen⟩ := optionTraverse_some _ (spd_cycles (window_rows cfg df)) hlook
    have hrne : rows ≠ [] := by
      intro hc
      subst hc
      exact spd_cycles_ne_nil hW (List.length_eq_zero.mp hrlen.symm)
    simp only [compute_cycle_spd]
    rw [hrows]
    cases rows with
    | nil => exact absurd rfl hrne
    | cons a t => simp
  · intro t ht r hr hmiss
    have hlook : wlookup r.date (ingest wraw) = none := by
      apply wlookup_eq_none
      rw [ingest_fst]
      exact hmiss
    have hinner : optionTraverse (fun r => wlookup r.date (ingest wraw)) t.2.2 = none :=
      optionTraverse_none hr hlook
    have houter : optionTraverse (fun t =>
        (optionTraverse (fun r => wlookup r.date (ingest wraw)) t.2.2).map
          (fun ws => mk_cycle_row (t.1.year, t.2.1.year)
            (t.2.2.map (fun r => r.btc_close)) ws))
        (spd_cycles (window_rows cfg df)) = none := by
      apply optionTraverse_none ht
      rw [hinner]
      rfl
    simp only [compute_cycle_spd]
    rw [houter]

/-- Window of two days for `claim7_counterexample`. -/
def cfgC7 : Config := ⟨⟨2020, 1, 1⟩, ⟨2020, 12, 31⟩, 1, 10, 0⟩

/-- A two-day price series. -/
def dfC7 : List PRow := [⟨⟨2020, 1, 1⟩, 100, 0, 0⟩, ⟨⟨2020, 1, 2⟩, 100, 0, 0⟩]

/-- A strategy output covering only the first of the two window dates. -/
def wrawC7 : List (Date × Option ℚ) := [(⟨2020, 1, 1⟩, some 1)]

/-- Claim C7 is false of the code as stated: a window date missing from the
strategy's output is not treated as weight 0 — the label lookup fails
(`KeyError`), so the evaluation fails rather than producing a dynamic SPD. -/
theorem claim7_counterexample : compute_cycle_spd cfgC7 dfC7 wrawC7 = none := by
  with_unfolding_all rfl

/-- The single cycle triple the evaluator emits for the `cfgC7` window, used
by `claim7_witness`. -/
def tC7 : Date × Date × List PRow :=
  (⟨2020, 1, 1⟩, ⟨2020, 1, 2⟩,
    [⟨⟨2020, 1, 1⟩, 100, 0, 0⟩, ⟨⟨2020, 1, 2⟩, 100, 0, 0⟩])

theorem claim7_witness :
    (compute_cycle_spd cfgC1 dfC1 wrawC1).isSome = true ∧
    compute_cycle_spd cfgC7 dfC7 wrawC7 = none :=
  ⟨(claim7_ingest_clip_cover cfgC1 dfC1 wrawC1).2.1 (by with_unfolding_all decide)
      (by with_unfolding_all decide),
    (claim7_ingest_clip_cover cfgC7 dfC7 wrawC7).2.2 tC7 (by with_unfolding_all decide)
      ⟨⟨2020, 1, 2⟩, 100, 0, 0⟩ (by with_unfolding_all decide)
      (by with_unfolding_all decide)⟩

/-! ## Comparing the two partitions (C2) -/

theorem bool_ext {a b : Bool} (h : a = true ↔ b = true) : a = b := by
  cases a <;> cases b <;> simp_all

theorem jan1_le_iff {y : ℤ} {d : Date} (h1 : 1 ≤ d.month) (h3 : 1 ≤ d.day) :
    (dle ⟨y, 1, 1⟩ d = true) ↔ y ≤ d.year := by
  rw [dle_iff]
  dsimp only
  omega

theorem le_dec31_iff {y : ℤ} {d : Date} (h2 : d.month ≤ 12) (h4 : d.day ≤ 31) :
    (dle d ⟨y, 12, 31⟩ = true) ↔ d.year ≤ y := by
  rw [dle_iff]
  dsimp only
  omega

theorem addYears4_jan1 (y : ℤ) : addYears 4 ⟨y, 1, 1⟩ = ⟨y + 4, 1, 1⟩ := by
  unfold addYears daysInMonth
  norm_num

theorem predDay_jan1 (y : ℤ) : predDay ⟨y, 1, 1⟩ = ⟨y - 1, 12, 31⟩ := by
  unfold predDay
  norm_num

/-- On a January-1-aligned grid, the evaluator's cycle slices are the label
classes of `(year - start_year) // 4`, in order: slice `k` collects exactly
the window rows with label `k`. -/
theorem spd_cycles_aux_jan1 (cfg : Config) (W : List PRow) (maxD : Date)
    (hv : ∀ r ∈ W, ValidDate r.date)
    (hmax : ∀ r ∈ W, dle r.date maxD = true)
    (hminY : ∀ r ∈ W, cfg.BACKTEST_START.year ≤ r.date.year)
    (hvmax : ValidDate maxD)
    (hmaxY : cfg.BACKTEST_START.year ≤ maxD.year)
    (hall : ∀ j : ℕ, j ≤ (maxD.year - cfg.BACKTEST_START.year).toNat / 4 →
      ∃ r ∈ W, cycle_label cfg r = (j : ℤ)) :
    ∀ (fuel k : ℕ),
      spd_fuel ⟨cfg.BACKTEST_START.year + 4 * (k : ℤ), 1, 1⟩ maxD ≤ fuel →
      (spd_cycles_aux W maxD fuel ⟨cfg.BACKTEST_START.year + 4 * (k : ℤ), 1, 1⟩).map
          (fun t => t.2.2) =
        (List.range' k ((maxD.year - cfg.BACKTEST_START.year).toNat / 4 + 1 - k)).map
          (fun j : ℕ => W.filter (fun r => decide (cycle_label cfg r = (j : ℤ)))) := by
  intro fuel
  induction fuel with
  | zero =>
    intro k hb
    unfold spd_fuel at hb
    dsimp only at hb
    have hcount : (maxD.year - cfg.BACKTEST_START.year).toNat / 4 + 1 - k = 0 := by omega
    rw [hcount]
    rfl
  | succ fuel ih =>
    intro k hb
    by_cases hk : cfg.BACKTEST_START.year + 4 * (k : ℤ) ≤ maxD.year
    · have hdle : dle ⟨cfg.BACKTEST_START.year + 4 * (k : ℤ), 1, 1⟩ maxD = true :=
        (jan1_le_iff hvmax.1 hvmax.2.2.1).mpr hk
      have hkL : k ≤ (maxD.year - cfg.BACKTEST_START.year).toNat / 4 := by omega
      have hslice : W.filter (fun r =>
          dle ⟨cfg.BACKTEST_START.year + 4 * (k : ℤ), 1, 1⟩ r.date &&
          dle r.date (dmin
            (predDay (addYears 4 ⟨cfg.BACKTEST_START.year + 4 * (k : ℤ), 1, 1⟩))
            maxD)) =
          W.filter (fun r => decide (cycle_label cfg r = (k : ℤ))) := by
        apply List.filter_congr
        intro r hr
        apply bool_ext
        rw [Bool.and_eq_true, addYears4_jan1, predDay_jan1, decide_eq_true_eq]
        obtain ⟨hv1, hv2, hv3, hv4⟩ := hv r hr
        have hd31 : r.date.day ≤ 31 := le_trans hv4 (daysInMonth_le _ _)
        rw [jan1_le_iff hv1 hv3, le_dmin_iff, le_dec31_iff hv2 hd31, hmax r hr]
        unfold cycle_label
        rw [Int.fdiv_eq_ediv _ (by norm_num)]
        have hY := hminY r hr
        constructor
        · rintro ⟨ha, hb2, _⟩
          omega
        · intro hlab
          refine ⟨by omega, by omega, rfl⟩
      have hnemp : ¬ (W.filter (fun r =>
          dle ⟨cfg.BACKTEST_START.year + 4 * (k : ℤ), 1, 1⟩ r.date &&
          dle r.date (dmin
            (predDay (addYears 4 ⟨cfg.BACKTEST_START.year + 4 * (k : ℤ), 1, 1⟩))
            maxD))).isEmpty = true := by
        rw [hslice]
        intro hc
        rw [List.isEmpty_iff] at hc
        obtain ⟨r, hr, hlab⟩ := hall k hkL
        have hrmem : r ∈ W.filter (fun r => decide (cycle_label cfg r = (k : ℤ))) :=
          List.mem_filter.mpr ⟨hr, decide_eq_true hlab⟩
        rw [hc] at hrmem
        exact absurd hrmem (List.not_mem_nil r)
      simp only [spd_cycles_aux]
      rw [if_pos hdle, if_neg hnemp, List.map_cons]
      dsimp only
      have hcount : (maxD.year - cfg.BACKTEST_START.year).toNat / 4 + 1 - k =
          ((maxD.year - cfg.BACKTEST_START.year).toNat / 4 - k) + 1 := by omega
      rw [hcount, List.range'_succ, List.map_cons, hslice]
      congr 1
      have hdate : addYears 4 (⟨cfg.BACKTEST_START.year + 4 * (k : ℤ), 1, 1⟩ : Date) =
          ⟨cfg.BACKTEST_START.year + 4 * ((k + 1 : ℕ) : ℤ), 1, 1⟩ := by
        rw [addYears4_jan1]
        push_cast
        rw [Date.mk.injEq]
        refine ⟨by ring, rfl, rfl⟩
      rw [hdate]
      have hcount2 : (maxD.year - cfg.BACKTEST_START.year).toNat / 4 - k =
          (maxD.year - cfg.BACKTEST_START.year).toNat / 4 + 1 - (k + 1) := by omega
      rw [hcount2]
      apply ih
      unfold spd_fuel at *
      dsimp only at *
      push_cast
      omega
    · have hdle : ¬ dle ⟨cfg.BACKTEST_START.year + 4 * (k : ℤ), 1, 1⟩ maxD = true := by
        rw [jan1_le_iff hvmax.1 hvmax.2.2.1]
        exact hk
      simp only [spd_cycles_aux]
      rw [if_neg hdle]
      have hcount : (maxD.year - cfg.BACKTEST_START.year).toNat / 4 + 1 - k = 0 := by
        omega
      rw [hcount]
      rfl

/-- On a chronologically sorted window whose labels `0..L` are all
inhabited, pandas' groupby (sorted distinct labels, each mapped to its label
class) enumerates exactly the label classes `0..L` in order. -/
theorem cycle_groups_jan1 (cfg : Config) (df : List PRow)
    (hsort : List.Pairwise (fun a b => dle a.date b.date = true) (window_rows cfg df))
    (hminY : ∀ r ∈ window_rows cfg df, cfg.BACKTEST_START.year ≤ r.date.year)
    (hmaxY2 : ∀ r ∈ window_rows cfg df,
      r.date.year ≤ (max_date (window_rows cfg df)).year)
    (hall : ∀ j : ℕ, j ≤ ((max_date (window_rows cfg df)).year -
        cfg.BACKTEST_START.year).toNat / 4 →
      ∃ r ∈ window_rows cfg df, cycle_label cfg r = (j : ℤ)) :
    cycle_groups cfg df =
      (List.range (((max_date (window_rows cfg df)).year -
          cfg.BACKTEST_START.year).toNat / 4 + 1)).map
        (fun j : ℕ => (window_rows cfg df).filter
          (fun r => decide (cycle_label cfg r = (j : ℤ)))) := by
  have hlab_mono : List.Pairwise (· ≤ ·)
      ((window_rows cfg df).map (cycle_label cfg)) := by
    refine List.Pairwise.map _ ?_ hsort
    intro a b hab
    rw [dle_iff] at hab
    unfold cycle_label
    rw [Int.fdiv_eq_ediv _ (by norm_num), Int.fdiv_eq_ediv _ (by norm_num)]
    omega
  have hded_sorted_le : List.Pairwise (· ≤ ·)
      (((window_rows cfg df).map (cycle_label cfg)).dedup) :=
    List.Pairwise.sublist (List.dedup_sublist _) hlab_mono
  have hded_nodup := List.nodup_dedup ((window_rows cfg df).map (cycle_label cfg))
  have htarget_nodup : ((List.range (((max_date (window_rows cfg df)).year -
      cfg.BACKTEST_START.year).toNat / 4 + 1)).map (fun j : ℕ => (j : ℤ))).Nodup :=
    (List.nodup_range _).map Nat.cast_injective
  have hmem_iff : ∀ c : ℤ,
      c ∈ ((window_rows cfg df).map (cycle_label cfg)).dedup ↔
      c ∈ (List.range (((max_date (window_rows cfg df)).year -
        cfg.BACKTEST_START.year).toNat / 4 + 1)).map (fun j : ℕ => (j : ℤ)) := by
    intro c
    rw [List.mem_dedup, List.mem_map, List.mem_map]
    constructor
    · rintro ⟨r, hr, hrc⟩
      have h1 := hminY r hr
      have h2 := hmaxY2 r hr
      have hc0 : 0 ≤ c ∧ c ≤ ((max_date (window_rows cfg df)).year -
          cfg.BACKTEST_START.year).toNat / 4 := by
        rw [← hrc]
        unfold cycle_label
        rw [Int.fdiv_eq_ediv _ (by norm_num)]
        omega
      refine ⟨c.toNat, ?_, by omega⟩
      rw [List.mem_range]
      omega
    · rintro ⟨j, hj, hjc⟩
      rw [List.mem_range] at hj
      obtain ⟨r, hr, hlab⟩ := hall j (by omega)
      exact ⟨r, hr, by rw [hlab, hjc]⟩
  have hperm := (List.perm_ext_iff_of_nodup hded_nodup htarget_nodup).mpr hmem_iff
  have htarget_sorted : List.Pairwise (· ≤ ·)
      ((List.range (((max_date (window_rows cfg df)).year -
        cfg.BACKTEST_START.year).toNat / 4 + 1)).map (fun j : ℕ => (j : ℤ))) := by
    refine List.Pairwise.map _ ?_ (List.pairwise_lt_range _)
    intro a b hab
    exact_mod_cast le_of_lt hab
  have heq := List.eq_of_perm_of_sorted hperm hded_sorted_le htarget_sorted
  simp only [cycle_groups]
  rw [List.Sorted.insertionSort_eq hded_sorted_le, heq, List.map_map]
  rfl

/-- Claim C2 (amended): when the window's first data date is January 1 of
`BACKTEST_START`'s year, the window is chronologically sorted with valid
dates, and every nominal label class up to the last data year is inhabited,
the evaluator's cycle partition and the allocator's year-label grouping
coincide — every day is assigned to the same cycle by both components. -/
theorem claim2_partitions_agree (cfg : Config) (df : List PRow)
    (hW : window_rows cfg df ≠ [])
    (hv : ∀ r ∈ window_rows cfg df, ValidDate r.date)
    (hsort : List.Pairwise (fun a b => dle a.date b.date = true) (window_rows cfg df))
    (hjan : min_date (window_rows cfg df) = ⟨cfg.BACKTEST_START.year, 1, 1⟩)
    (hall : ∀ j : ℕ, j ≤ ((max_date (window_rows cfg df)).year -
        cfg.BACKTEST_START.year).toNat / 4 →
      ∃ r ∈ window_rows cfg df, cycle_label cfg r = (j : ℤ)) :
    spd_slices (window_rows cfg df) = cycle_groups cfg df := by
  have hminY : ∀ r ∈ window_rows cfg df, cfg.BACKTEST_START.year ≤ r.date.year := by
    intro r hr
    have := min_date_le hr
    rw [hjan, jan1_le_iff (hv r hr).1 (hv r hr).2.2.1] at this
    exact this
  have hmax : ∀ r ∈ window_rows cfg df,
      dle r.date (max_date (window_rows cfg df)) = true :=
    fun r hr => le_max_date hr
  have hmaxY2 : ∀ r ∈ window_rows cfg df,
      r.date.year ≤ (max_date (window_rows cfg df)).year := by
    intro r hr
    have := le_max_date hr
    rw [dle_iff] at this
    omega
  have hvmax : ValidDate (max_date (window_rows cfg df)) := by
    have := max_date_mem hW
    rw [List.mem_map] at this
    obtain ⟨r, hr, hre⟩ := this
    rw [← hre]
    exact hv r hr
  have hmaxY : cfg.BACKTEST_START.year ≤ (max_date (window_rows cfg df)).year := by
    have := max_date_mem hW
    rw [List.mem_map] at this
    obtain ⟨r, hr, hre⟩ := this
    rw [← hre]
    exact hminY r hr
  have h0 : (⟨cfg.BACKTEST_START.year + 4 * ((0 : ℕ) : ℤ), 1, 1⟩ : Date) =
      ⟨cfg.BACKTEST_START.year, 1, 1⟩ := by
    norm_num
  have hA := spd_cycles_aux_jan1 cfg (window_rows cfg df)
    (max_date (window_rows cfg df)) hv hmax hminY hvmax hmaxY hall
    (spd_fuel (min_date (window_rows cfg df)) (max_date (window_rows cfg df))) 0
  rw [h0, hjan] at hA
  unfold spd_slices spd_cycles
  rw [hjan, hA (le_refl _), cycle_groups_jan1 cfg df hsort hminY hmaxY2 hall,
    Nat.sub_zero, ← List.range_eq_range']

/-- A mid-year window start for `claim2_counterexample`. -/
def cfgC2 : Config := ⟨⟨2013, 6, 1⟩, ⟨2024, 12, 31⟩, 1, 10, 0⟩

/-- Two data points: 2017-01-15 lies in the evaluator's first cycle
(2013-06-01 … 2017-05-31) but in the allocator's second year-label class
((2017−2013)//4 = 1). -/
def dfC2 : List PRow := [⟨⟨2013, 6, 1⟩, 100, 0, 0⟩, ⟨⟨2017, 1, 15⟩, 200, 0, 0⟩]

/-- Claim C2 is false of the code as stated: for a mid-year window start the
evaluator puts both days into one cycle while the allocator splits them into
two label classes, so the two partitions assign 2017-01-15 to different
cycles. -/
theorem claim2_counterexample :
    spd_slices (window_rows cfgC2 dfC2) =
      [[⟨⟨2013, 6, 1⟩, 100, 0, 0⟩, ⟨⟨2017, 1, 15⟩, 200, 0, 0⟩]] ∧
    cycle_groups cfgC2 dfC2 =
      [[⟨⟨2013, 6, 1⟩, 100, 0, 0⟩], [⟨⟨2017, 1, 15⟩, 200, 0, 0⟩]] ∧
    spd_slices (window_rows cfgC2 dfC2) ≠ cycle_groups cfgC2 dfC2 := by
  refine ⟨?_, ?_, ?_⟩ <;> with_unfolding_all decide

/-- A January-1-aligned window for the `claim2_partitions_agree` witness. -/
def cfgW2 : Config := ⟨⟨2013, 1, 1⟩, ⟨2024, 12, 31⟩, 1, 10, 0⟩

/-- Two data points in consecutive label classes, starting January 1. -/
def dfW2 : List PRow := [⟨⟨2013, 1, 1⟩, 100, 0, 0⟩, ⟨⟨2017, 5, 2⟩, 200, 0, 0⟩]

theorem claim2_witness :
    spd_slices (window_rows cfgW2 dfW2) = cycle_groups cfgW2 dfW2 :=
  claim2_partitions_agree cfgW2 dfW2 (by with_unfolding_all decide)
    (by with_unfolding_all decide) (by with_unfolding_all decide)
    (by with_unfolding_all decide) (by with_unfolding_all decide)

theorem claim6_witness :
    ([(1 : ℚ)/4, 1/4, 1/4, 1/4] : List ℚ).sum = 1 ∧
    (mk_cycle_row (2013, 2016) [(100 : ℚ), 80, 120, 90] [1/4, 1/4, 1/4, 1/4]).min_spd ≤
      (mk_cycle_row (2013, 2016) [(100 : ℚ), 80, 120, 90] [1/4, 1/4, 1/4, 1/4]).uniform_spd :=
  ⟨by norm_num,
    (claim6_spd_bounds (2013, 2016) [100, 80, 120, 90] [1/4, 1/4, 1/4, 1/4]
      (by simp) (by norm_num) (by rfl) (by norm_num) (by norm_num)).1.1⟩

end Hypertrial
